import Mathlib

/-!
Verification development for the Qualtran tutorial-notebook excerpt
(`qualtran/bloqs/mcmt/ctrl_spec_and.ipynb` and the bloqs tutorial).

The repository excerpt contains the notebooks only; the `qualtran`
library implementations (`Register`, `Side`, `CtrlSpec`, `CtrlSpecAnd`,
`BloqBuilder`) are documented and exercised by the notebooks but their
bodies are not part of the excerpt.  Definitions below that embed those
missing bodies are modelled from the spec (the notebook documentation
text); definitions such as `CNOT`, `SwapTwoBits`, `Swap`, `ReAlloc` are
translated from the notebook code cells directly.
-/

/-- Modelled from the spec: the `Side` enumeration of `qualtran.Register`.
The tutorial describes three sides: `THRU` (default; register is both an
input and an output), `LEFT` (input-only) and `RIGHT` (output-only). -/
inductive Side where
  | LEFT
  | RIGHT
  | THRU
deriving DecidableEq, Repr

/-- A LEFT or THRU register is available as an input. -/
def Side.isInput : Side → Bool
  | Side.LEFT => true
  | Side.THRU => true
  | Side.RIGHT => false

/-- A RIGHT or THRU register is available as an output. -/
def Side.isOutput : Side → Bool
  | Side.LEFT => false
  | Side.THRU => true
  | Side.RIGHT => true

/-- Modelled from the spec: `qualtran.Register`.  A register has a name,
quantum-type information (abstracted to its total bitsize here), and a
`side` attribute that defaults to `THRU`. -/
structure Register where
  name : String
  bitsize : Nat
  side : Side := Side.THRU
deriving DecidableEq, Repr

/-- Modelled from the spec: a `Signature` is a list of registers. -/
def Signature := List Register

/-- The input registers of a signature (LEFT and THRU). -/
def leftRegs (sig : List Register) : List Register :=
  sig.filter (fun r => r.side.isInput)

/-- The output registers of a signature (RIGHT and THRU). -/
def rightRegs (sig : List Register) : List Register :=
  sig.filter (fun r => r.side.isOutput)

/-- Translated from the notebook: `ReAlloc` has an input-only register
`input_only` (side LEFT) and an output-only register `output_only`
(side RIGHT). -/
def ReAllocSignature : List Register :=
  [{ name := "input_only", bitsize := 1, side := Side.LEFT },
   { name := "output_only", bitsize := 1, side := Side.RIGHT }]

/-- Modelled from the spec: one clause of a `CtrlSpec` of And clauses:
a control dtype (abstracted to its bitsize) together with the constant
value `cv` that the corresponding control register must equal. -/
structure CtrlClause where
  bitsize : Nat
  cv : Nat
deriving DecidableEq, Repr

/-- Modelled from the spec: a `CtrlSpec` that is a logical AND of
clauses, each requiring one control register to equal a constant. -/
structure CtrlSpec where
  clauses : List CtrlClause
deriving DecidableEq, Repr

/-- Modelled from the spec: `CtrlSpec.num_qubits`, the total number of
control qubits over all control dtypes. -/
def CtrlSpec.num_qubits (cs : CtrlSpec) : Nat :=
  (cs.clauses.map CtrlClause.bitsize).sum

/-- The control registers `ctrl_i` of `CtrlSpecAnd`, one THRU register
for the i-th ctrl dtype in the ctrl spec, numbered from `i`. -/
def ctrlRegs (i : Nat) : List CtrlClause → List Register
  | [] => []
  | c :: cls =>
    { name := "ctrl_" ++ toString i, bitsize := c.bitsize, side := Side.THRU }
      :: ctrlRegs (i + 1) cls

/-- Modelled from the spec: the signature of `CtrlSpecAnd(ctrl_spec)`.
Registers (from the notebook documentation): `ctrl_i`, the control
register for the i-th ctrl dtype (passed through, THRU); `junk [right]`,
`ctrl_spec.num_qubits - 2` qubits, only present if that size is
non-zero; `target [right]`, the output bit storing the result. -/
def ctrlSpecAndSignature (cs : CtrlSpec) : List Register :=
  ctrlRegs 0 cs.clauses
    ++ (if cs.num_qubits - 2 ≠ 0 then
          [{ name := "junk", bitsize := cs.num_qubits - 2, side := Side.RIGHT }]
        else [])
    ++ [{ name := "target", bitsize := 1, side := Side.RIGHT }]

/-- Whether a classical assignment of values to the control registers
satisfies every clause of the ctrl spec (each register equals its
constant). -/
def CtrlSpec.satisfied (cs : CtrlSpec) (vals : List Nat) : Bool :=
  (cs.clauses.zip vals).all (fun p => p.2 == p.1.cv)

/-- Modelled from the spec: the classical action of
`CtrlSpecAnd(ctrl_spec)` on a basis state.  The control registers are
passed through as-is; the bloq additionally produces the RIGHT-side
`junk` qubits (contents unspecified by the documentation, embedded as
zeros) and the single `target` qubit, which is `1` iff the CtrlSpec of
And clauses is satisfied. -/
def ctrlSpecAndRun (cs : CtrlSpec) (vals : List Nat) :
    List Nat × List Nat × Nat :=
  (vals, List.replicate (cs.num_qubits - 2) 0,
   if cs.satisfied vals then 1 else 0)

/-- Modelled from the spec: a quantum variable (`Soquet`).  Soquets are
constructed and managed by `BloqBuilder`; each one records a unique
identity, the graph node that produced it, the name of the register it
was produced at, and its bitsize. -/
structure Soquet where
  id : Nat
  producer : Nat
  regName : String
  bitsize : Nat
deriving DecidableEq, Repr

/-- Modelled from the spec: `qualtran.BloqError`, the error raised when
the builder's linearity checks fail. -/
def BloqError := String
deriving instance DecidableEq for BloqError

/-- A bloq as seen by the builder: a name and a signature. -/
structure BloqSpec where
  name : String
  sig : List Register
deriving DecidableEq, Repr

/-- Translated from the notebook: `CNOT` has THRU registers `control`
and `target`, each a single qubit. -/
def CNOT : BloqSpec :=
  { name := "CNOT",
    sig := [{ name := "control", bitsize := 1 }, { name := "target", bitsize := 1 }] }

/-- Translated from the notebook: `SwapTwoBits` has THRU registers `x`
and `y`, each a single qubit. -/
def SwapTwoBits : BloqSpec :=
  { name := "SwapTwoBits",
    sig := [{ name := "x", bitsize := 1 }, { name := "y", bitsize := 1 }] }

/-- Modelled from the spec: the mutable state of a `BloqBuilder`
session: a supply of fresh soquet ids, a supply of fresh graph node
indices (node `0` is the left boundary), the live (produced but not yet
consumed) soquets, the wiring edges accumulated so far, and the
`add_register_allowed` flag shown in the notebook. -/
structure BuilderState where
  nextId : Nat
  nextNode : Nat
  live : List Soquet
  edges : List (Nat × Nat)
  add_register_allowed : Bool
deriving DecidableEq, Repr

/-- Modelled from the spec: `BloqBuilder()` starts with no live soquets
and no edges; `add_register_allowed` defaults to `true` (the notebook
sets it to `False` to "turn on the additional checks"). -/
def initBuilder (allow : Bool) : BuilderState :=
  { nextId := 0, nextNode := 1, live := [], edges := [], add_register_allowed := allow }

/-- Modelled from the spec: `bb.add_register(name, bitsize)` returns a
fresh soquet produced at the left boundary (node `0`). -/
def BuilderState.addRegister (s : BuilderState) (name : String) (bitsize : Nat) :
    Soquet × BuilderState :=
  let soq : Soquet := { id := s.nextId, producer := 0, regName := name, bitsize := bitsize }
  (soq, { s with nextId := s.nextId + 1, live := s.live ++ [soq] })

/-- Resolve keyword arguments against a list of registers, producing the
supplied soquet id for each register in signature order. -/
def lookupKwargs (kwargs : List (String × Nat)) :
    List Register → Option (List (Register × Nat))
  | [] => some []
  | r :: rs =>
    match kwargs.find? (fun p => p.1 == r.name) with
    | none => none
    | some p =>
      match lookupKwargs kwargs rs with
      | none => none
      | some rest => some ((r, p.2) :: rest)

/-- Look every id up among the live soquets; `none` if any is missing. -/
def lookupLive (live : List Soquet) : List Nat → Option (List Soquet)
  | [] => some []
  | i :: is =>
    match live.find? (fun soq => soq.id == i) with
    | none => none
    | some soq =>
      match lookupLive live is with
      | none => none
      | some rest => some (soq :: rest)

/-- Fresh output soquets for the output registers of a bloq added as
graph node `node`, in signature order. -/
def freshOuts (startId node : Nat) : List Register → List Soquet
  | [] => []
  | r :: rs =>
    { id := startId, producer := node, regName := r.name, bitsize := r.bitsize }
      :: freshOuts (startId + 1) node rs

/-- A run of fresh single-bit soquets with consecutive ids, produced at
graph node `node` (the bit-level view of a split register). -/
def bitRun (startId node : Nat) : Nat → List Soquet
  | 0 => []
  | c + 1 =>
    { id := startId, producer := node, regName := "reg", bitsize := 1 }
      :: bitRun (startId + 1) node c

/-- Modelled from the spec: `bb.add(bloq, **kwargs)`.  The keyword
argument names must match the input register names of the bloq's
signature; each supplied quantum variable must be live and may be
supplied only once (linear logic); on success the consumed variables are
retired, fresh output variables (one per output register, in signature
order) are produced at a new graph node, and a wiring edge is recorded
from each consumed soquet's producer to the new node. -/
def BuilderState.add (s : BuilderState) (bloq : BloqSpec)
    (kwargs : List (String × Nat)) :
    Except BloqError (List Soquet × BuilderState) :=
  if ¬ (kwargs.map Prod.fst).Nodup then
    .error "duplicate keyword argument"
  else if ¬ (kwargs.map Prod.fst).Perm ((leftRegs bloq.sig).map Register.name) then
    .error "keyword arguments do not match the input registers"
  else
    match lookupKwargs kwargs (leftRegs bloq.sig) with
    | none => .error "missing input register value"
    | some ins =>
      if ¬ (ins.map Prod.snd).Nodup then
        .error "the same soquet was supplied to two registers"
      else
        match lookupLive s.live (ins.map Prod.snd) with
        | none => .error "soquet is not live (already consumed or never created)"
        | some soqs =>
          if ¬ (List.zip ins soqs).all (fun p => p.1.1.bitsize == p.2.bitsize) then
            .error "register bitsize mismatch"
          else
            .ok (freshOuts s.nextId s.nextNode (rightRegs bloq.sig),
              { nextId := s.nextId
                  + (freshOuts s.nextId s.nextNode (rightRegs bloq.sig)).length
                nextNode := s.nextNode + 1
                live := s.live.filter (fun soq => ! (ins.map Prod.snd).contains soq.id)
                  ++ freshOuts s.nextId s.nextNode (rightRegs bloq.sig)
                edges := s.edges ++ soqs.map (fun soq => (soq.producer, s.nextNode))
                add_register_allowed := s.add_register_allowed })

/-- Modelled from the spec: `bb.split(x)` consumes an n-bit live soquet
and yields an array of n single-bit soquets. -/
def BuilderState.split (s : BuilderState) (x : Nat) :
    Except BloqError (List Soquet × BuilderState) :=
  match s.live.find? (fun soq => soq.id == x) with
  | none => .error "soquet is not live (already consumed or never created)"
  | some soq =>
    .ok (bitRun s.nextId s.nextNode soq.bitsize,
      { s with nextId := s.nextId + soq.bitsize, nextNode := s.nextNode + 1,
               live := s.live.filter (fun t => ! (t.id == x))
                 ++ bitRun s.nextId s.nextNode soq.bitsize,
               edges := s.edges ++ [(soq.producer, s.nextNode)] })

/-- Modelled from the spec: `bb.join(xs)` consumes n single-bit live
soquets and yields one n-bit soquet. -/
def BuilderState.join (s : BuilderState) (xs : List Nat) :
    Except BloqError (Soquet × BuilderState) :=
  if ¬ xs.Nodup then
    .error "the same soquet was supplied to two registers"
  else
    match lookupLive s.live xs with
    | none => .error "soquet is not live (already consumed or never created)"
    | some soqs =>
      if ¬ soqs.all (fun soq => soq.bitsize == 1) then
        .error "join expects single-bit soquets"
      else
        .ok ({ id := s.nextId, producer := s.nextNode, regName := "reg",
               bitsize := xs.length },
          { s with nextId := s.nextId + 1, nextNode := s.nextNode + 1,
                   live := s.live.filter (fun t => ! xs.contains t.id)
                     ++ [{ id := s.nextId, producer := s.nextNode, regName := "reg",
                           bitsize := xs.length }],
                   edges := s.edges ++ soqs.map (fun soq => (soq.producer, s.nextNode)) })

/-- The frozen result of a building session: the wiring graph. -/
structure CompositeBloq where
  numNodes : Nat
  edges : List (Nat × Nat)
deriving DecidableEq, Repr

/-- Modelled from the spec: `bb.finalize(**outs)` freezes the session
into an immutable `CompositeBloq`.  Every named output must be a live
soquet; when `add_register_allowed` is `false` the additional check is
on: any live variable not passed on raises `BloqError`; otherwise the
leftovers are auto-added as outputs. -/
def BuilderState.finalize (s : BuilderState) (outs : List (String × Nat)) :
    Except BloqError CompositeBloq :=
  if ¬ (outs.map Prod.snd).Nodup then
    .error "the same soquet was passed twice to finalize"
  else
    match lookupLive s.live (outs.map Prod.snd) with
    | none => .error "soquet is not live (already consumed or never created)"
    | some soqs =>
      if s.live.filter (fun t => ! (outs.map Prod.snd).contains t.id) ≠ []
          ∧ s.add_register_allowed = false then
        .error "some live soquets were not passed on to finalize"
      else
        .ok { numNodes := s.nextNode + 1,
              edges := s.edges
                ++ (soqs ++ s.live.filter (fun t => ! (outs.map Prod.snd).contains t.id)).map
                  (fun soq => (soq.producer, s.nextNode)) }

/-- A builder operation, referring to soquets by id. -/
inductive Op where
  | addRegister (name : String) (bitsize : Nat)
  | add (bloq : BloqSpec) (kwargs : List (String × Nat))
  | split (x : Nat)
  | join (xs : List Nat)
deriving DecidableEq, Repr

/-- Run one builder operation (discarding the returned soquets). -/
def runOp (s : BuilderState) : Op → Except BloqError BuilderState
  | Op.addRegister name bitsize => .ok (s.addRegister name bitsize).2
  | Op.add bloq kwargs => (s.add bloq kwargs).map Prod.snd
  | Op.split x => (s.split x).map Prod.snd
  | Op.join xs => (s.join xs).map Prod.snd

/-- Run a sequence of builder operations. -/
def runOps (s : BuilderState) : List Op → Except BloqError BuilderState
  | [] => .ok s
  | op :: ops =>
    match runOp s op with
    | .error e => .error e
    | .ok s' => runOps s' ops

/-- Whether a fallible result is an error. -/
def isErr {ε α : Type} : Except ε α → Bool
  | .error _ => true
  | .ok _ => false

/-- The ids of the live soquets of a builder state. -/
def liveIds (s : BuilderState) : List Nat := s.live.map Soquet.id

lemma string_len_ctrl (t : String) (nm : String) (hlen : nm.length < 5) :
    "ctrl_" ++ t ≠ nm := by
  intro h
  have h2 : ("ctrl_" ++ t).length = nm.length := by rw [h]
  rw [String.length_append] at h2
  have h3 : "ctrl_".length = 5 := rfl
  omega

lemma ctrlRegs_name {r : Register} :
    ∀ {i : Nat} {cls : List CtrlClause}, r ∈ ctrlRegs i cls →
      ∃ t, r.name = "ctrl_" ++ t := by
  intro i cls
  induction cls generalizing i with
  | nil => intro h; simp [ctrlRegs] at h
  | cons c cls ih =>
    intro h
    rcases List.mem_cons.mp h with h1 | h2
    · exact ⟨toString i, by rw [h1]⟩
    · exact ih h2

lemma ctrlRegs_side {r : Register} :
    ∀ {i : Nat} {cls : List CtrlClause}, r ∈ ctrlRegs i cls →
      r.side = Side.THRU := by
  intro i cls
  induction cls generalizing i with
  | nil => intro h; simp [ctrlRegs] at h
  | cons c cls ih =>
    intro h
    rcases List.mem_cons.mp h with h1 | h2
    · rw [h1]
    · exact ih h2

/-- C6: every `Register` has a `side` attribute defaulting to `THRU`
(the register is both an input and an output); a LEFT register is
input-only and a RIGHT register is output-only, so an allocating bloq
exposes its new qubit through a RIGHT register and a discarding bloq
through a LEFT register, as in `ReAlloc`. -/
theorem register_side_asymmetric :
    (∀ (nm : String) (n : Nat), ({ name := nm, bitsize := n } : Register).side = Side.THRU)
    ∧ Side.THRU.isInput = true ∧ Side.THRU.isOutput = true
    ∧ (∀ r : Register, r.side = Side.LEFT →
        r.side.isInput = true ∧ r.side.isOutput = false)
    ∧ (∀ r : Register, r.side = Side.RIGHT →
        r.side.isInput = false ∧ r.side.isOutput = true)
    ∧ (∃ r ∈ ReAllocSignature, r.name = "output_only" ∧ r.side = Side.RIGHT)
    ∧ (∃ r ∈ ReAllocSignature, r.name = "input_only" ∧ r.side = Side.LEFT) := by
  refine ⟨fun nm n => rfl, rfl, rfl, ?_, ?_, ?_, ?_⟩
  · intro r h; rw [h]; exact ⟨rfl, rfl⟩
  · intro r h; rw [h]; exact ⟨rfl, rfl⟩
  · exact ⟨{ name := "output_only", bitsize := 1, side := Side.RIGHT },
      by simp [ReAllocSignature], rfl, rfl⟩
  · exact ⟨{ name := "input_only", bitsize := 1, side := Side.LEFT },
      by simp [ReAllocSignature], rfl, rfl⟩

theorem register_side_asymmetric_witness :
    ({ name := "ctrl", bitsize := 1 } : Register).side = Side.THRU
    ∧ ({ name := "input_only", bitsize := 1, side := Side.LEFT } : Register).side.isInput
        = true :=
  ⟨register_side_asymmetric.1 "ctrl" 1,
   (register_side_asymmetric.2.2.2.1 _ rfl).1⟩

/-- C8: the signature of `CtrlSpecAnd(ctrl_spec)` contains a RIGHT-side
`junk` register of exactly `ctrl_spec.num_qubits - 2` qubits, present if
and only if that size is non-zero (so for specs on 2 or fewer qubits
there is no junk register). -/
theorem junk_register_in_signature (cs : CtrlSpec) :
    (2 < cs.num_qubits →
      ∃ r ∈ ctrlSpecAndSignature cs,
        r.name = "junk" ∧ r.side = Side.RIGHT ∧ r.bitsize = cs.num_qubits - 2)
    ∧ (cs.num_qubits ≤ 2 →
      ∀ r ∈ ctrlSpecAndSignature cs, r.name ≠ "junk") := by
  constructor
  · intro h
    refine ⟨{ name := "junk", bitsize := cs.num_qubits - 2, side := Side.RIGHT },
      ?_, rfl, rfl, rfl⟩
    unfold ctrlSpecAndSignature
    have h2 : cs.num_qubits - 2 ≠ 0 := by omega
    simp [h2]
  · intro h r hr
    unfold ctrlSpecAndSignature at hr
    have h0 : cs.num_qubits - 2 = 0 := by omega
    simp [h0] at hr
    rcases hr with h1 | h2
    · obtain ⟨t, ht⟩ := ctrlRegs_name h1
      rw [ht]
      exact string_len_ctrl t "junk" (by decide)
    · rw [h2]
      decide

theorem junk_register_in_signature_witness :
    ∃ r ∈ ctrlSpecAndSignature (CtrlSpec.mk [CtrlClause.mk 4 5]),
      r.name = "junk" ∧ r.side = Side.RIGHT
        ∧ r.bitsize = (CtrlSpec.mk [CtrlClause.mk 4 5]).num_qubits - 2 :=
  (junk_register_in_signature (CtrlSpec.mk [CtrlClause.mk 4 5])).1 (by decide)

/-- C7: `CtrlSpecAnd(ctrl_spec)` passes every control register through
unchanged; the only non-THRU registers of its signature are the
RIGHT-side `junk` and `target` outputs, and every control register is a
THRU register. -/
theorem ctrlSpecAnd_passthrough (cs : CtrlSpec) (vals : List Nat) :
    (ctrlSpecAndRun cs vals).1 = vals
    ∧ (∀ r ∈ ctrlSpecAndSignature cs, r.side ≠ Side.THRU →
        r.name = "junk" ∨ r.name = "target")
    ∧ (∀ r ∈ ctrlRegs 0 cs.clauses, r.side = Side.THRU) := by
  refine ⟨rfl, ?_, fun r hr => ctrlRegs_side hr⟩
  intro r hr hside
  unfold ctrlSpecAndSignature at hr
  rcases List.mem_append.mp hr with h1 | h2
  · rcases List.mem_append.mp h1 with h3 | h4
    · exact absurd (ctrlRegs_side h3) hside
    · by_cases hq : cs.num_qubits - 2 ≠ 0
      · simp [hq] at h4
        left; rw [h4]
      · simp [hq] at h4
  · simp at h2
    right; rw [h2]

theorem ctrlSpecAnd_passthrough_witness :
    (ctrlSpecAndRun (CtrlSpec.mk [CtrlClause.mk 1 1]) [1]).1 = [1] :=
  (ctrlSpecAnd_passthrough (CtrlSpec.mk [CtrlClause.mk 1 1]) [1]).1

lemma satisfied_iff_forall (cls : List CtrlClause) (vals : List Nat) :
    vals.length = cls.length →
    (((cls.zip vals).all (fun p => p.2 == p.1.cv)) = true ↔
      ∀ (i : Nat) (hi : i < cls.length) (hv : i < vals.length),
        vals.get ⟨i, hv⟩ = (cls.get ⟨i, hi⟩).cv) := by
  induction cls generalizing vals with
  | nil =>
    intro h
    constructor
    · intro _ i hi hv
      exact absurd hi (by simp)
    · intro _
      simp [List.zip_nil_left]
  | cons c cls ih =>
    intro h
    cases vals with
    | nil => simp at h
    | cons v vs =>
      have h' : vs.length = cls.length := by simpa using h
      simp only [List.zip_cons_cons, List.all_cons, Bool.and_eq_true, beq_iff_eq]
      rw [ih vs h']
      constructor
      · rintro ⟨h0, htl⟩ i hi hv
        match i with
        | 0 => exact h0
        | Nat.succ j => exact htl j (by simpa using hi) (by simpa using hv)
      · intro hall
        refine ⟨hall 0 (by simp) (by simp), fun i hi hv => ?_⟩
        exact hall (i + 1) (by simpa using hi) (by simpa using hv)

/-- C1: the `target` output of `CtrlSpecAnd(ctrl_spec)` is `1` if and
only if every control register equals its constant, i.e. the whole
multi-qubit And control condition is satisfied. -/
theorem ctrlSpecAnd_target_iff (cs : CtrlSpec) (vals : List Nat)
    (h : vals.length = cs.clauses.length) :
    (ctrlSpecAndRun cs vals).2.2 = 1 ↔
      ∀ (i : Nat) (hi : i < cs.clauses.length) (hv : i < vals.length),
        vals.get ⟨i, hv⟩ = (cs.clauses.get ⟨i, hi⟩).cv := by
  have hstep : (ctrlSpecAndRun cs vals).2.2 = 1 ↔ cs.satisfied vals = true := by
    unfold ctrlSpecAndRun
    by_cases hs : cs.satisfied vals = true
    · simp [hs]
    · simp [hs]
  rw [hstep]
  exact satisfied_iff_forall cs.clauses vals h

theorem ctrlSpecAnd_target_iff_witness :
    (ctrlSpecAndRun (CtrlSpec.mk [CtrlClause.mk 1 1, CtrlClause.mk 2 2]) [1, 2]).2.2 = 1 ↔
      ∀ (i : Nat) (hi : i < (CtrlSpec.mk [CtrlClause.mk 1 1, CtrlClause.mk 2 2]).clauses.length)
        (hv : i < ([1, 2] : List Nat).length),
        ([1, 2] : List Nat).get ⟨i, hv⟩ =
          ((CtrlSpec.mk [CtrlClause.mk 1 1, CtrlClause.mk 2 2]).clauses.get ⟨i, hi⟩).cv :=
  ctrlSpecAnd_target_iff (CtrlSpec.mk [CtrlClause.mk 1 1, CtrlClause.mk 2 2]) [1, 2] rfl

lemma freshOuts_mem {soq : Soquet} {node : Nat} {regs : List Register} :
    ∀ {startId : Nat}, soq ∈ freshOuts startId node regs →
      startId ≤ soq.id ∧ soq.id < startId + regs.length ∧ soq.producer = node := by
  induction regs with
  | nil => intro startId h; simp [freshOuts] at h
  | cons r rs ih =>
    intro startId h
    rcases List.mem_cons.mp h with h1 | h2
    · subst h1; simp
    · obtain ⟨ha, hb, hc⟩ := ih h2
      refine ⟨by omega, ?_, hc⟩
      simp only [List.length_cons]
      omega

lemma freshOuts_length (node : Nat) (regs : List Register) :
    ∀ (startId : Nat), (freshOuts startId node regs).length = regs.length := by
  induction regs with
  | nil => intro _; rfl
  | cons r rs ih => intro startId; simp [freshOuts, ih]

lemma freshOuts_ids_nodup (node : Nat) (regs : List Register) :
    ∀ (startId : Nat), ((freshOuts startId node regs).map Soquet.id).Nodup := by
  induction regs with
  | nil => intro _; simp [freshOuts]
  | cons r rs ih =>
    intro startId
    simp only [freshOuts, List.map_cons, List.nodup_cons]
    refine ⟨?_, ih (startId + 1)⟩
    intro hmem
    obtain ⟨soq, hsoq, hid⟩ := List.mem_map.mp hmem
    have := (freshOuts_mem hsoq).1
    omega

lemma freshOuts_names (node : Nat) (regs : List Register) :
    ∀ (startId : Nat),
      (freshOuts startId node regs).map Soquet.regName = regs.map Register.name := by
  induction regs with
  | nil => intro _; rfl
  | cons r rs ih => intro startId; simp [freshOuts, ih]

lemma freshOuts_bitsizes (node : Nat) (regs : List Register) :
    ∀ (startId : Nat),
      (freshOuts startId node regs).map Soquet.bitsize = regs.map Register.bitsize := by
  induction regs with
  | nil => intro _; rfl
  | cons r rs ih => intro startId; simp [freshOuts, ih]

lemma bitRun_mem {soq : Soquet} {node : Nat} :
    ∀ {c startId : Nat}, soq ∈ bitRun startId node c →
      startId ≤ soq.id ∧ soq.id < startId + c ∧ soq.producer = node ∧ soq.bitsize = 1 := by
  intro c
  induction c with
  | zero => intro startId h; simp [bitRun] at h
  | succ c ih =>
    intro startId h
    rcases List.mem_cons.mp h with h1 | h2
    · subst h1; simp
    · obtain ⟨ha, hb, hc, hd⟩ := ih h2
      exact ⟨by omega, by omega, hc, hd⟩

lemma bitRun_length (node : Nat) (c : Nat) :
    ∀ (startId : Nat), (bitRun startId node c).length = c := by
  induction c with
  | zero => intro _; rfl
  | succ c ih => intro startId; simp [bitRun, ih]

lemma bitRun_ids_nodup (node : Nat) (c : Nat) :
    ∀ (startId : Nat), ((bitRun startId node c).map Soquet.id).Nodup := by
  induction c with
  | zero => intro _; simp [bitRun]
  | succ c ih =>
    intro startId
    simp only [bitRun, List.map_cons, List.nodup_cons]
    refine ⟨?_, ih (startId + 1)⟩
    intro hmem
    obtain ⟨soq, hsoq, hid⟩ := List.mem_map.mp hmem
    have := (bitRun_mem hsoq).1
    omega

lemma lookupLive_sub {live : List Soquet} :
    ∀ {ids : List Nat} {soqs : List Soquet}, lookupLive live ids = some soqs →
      ∀ soq ∈ soqs, soq ∈ live := by
  intro ids
  induction ids with
  | nil =>
    intro soqs h soq hsoq
    simp [lookupLive] at h
    subst h; simp at hsoq
  | cons i is ih =>
    intro soqs h soq hsoq
    unfold lookupLive at h
    rcases hfind : live.find? (fun t => t.id == i) with _ | t
    · rw [hfind] at h; exact absurd h (by simp)
    · rw [hfind] at h
      rcases hrest : lookupLive live is with _ | rest
      · rw [hrest] at h; exact absurd h (by simp)
      · rw [hrest] at h
        have h2 : t :: rest = soqs := by simpa using h
        subst h2
        rcases List.mem_cons.mp hsoq with h3 | h4
        · subst h3; exact List.mem_of_find?_eq_some hfind
        · exact ih hrest soq h4

lemma lookupLive_ids {live : List Soquet} :
    ∀ {ids : List Nat} {soqs : List Soquet}, lookupLive live ids = some soqs →
      soqs.map Soquet.id = ids := by
  intro ids
  induction ids with
  | nil =>
    intro soqs h
    simp [lookupLive] at h
    subst h; rfl
  | cons i is ih =>
    intro soqs h
    unfold lookupLive at h
    rcases hfind : live.find? (fun t => t.id == i) with _ | t
    · rw [hfind] at h; exact absurd h (by simp)
    · rw [hfind] at h
      rcases hrest : lookupLive live is with _ | rest
      · rw [hrest] at h; exact absurd h (by simp)
      · rw [hrest] at h
        have h2 : t :: rest = soqs := by simpa using h
        subst h2
        have ht : t.id = i := by simpa using List.find?_some hfind
        simp [ht, ih hrest]

lemma lookupLive_isSome (live : List Soquet) :
    ∀ (ids : List Nat), (∀ i ∈ ids, i ∈ live.map Soquet.id) →
      ∃ soqs, lookupLive live ids = some soqs := by
  intro ids
  induction ids with
  | nil => intro _; exact ⟨[], rfl⟩
  | cons i is ih =>
    intro h
    have hi : i ∈ live.map Soquet.id := h i (by simp)
    obtain ⟨soq, hsoq, hid⟩ := List.mem_map.mp hi
    have hfind : (live.find? (fun t => t.id == i)).isSome := by
      rw [List.find?_isSome]
      exact ⟨soq, hsoq, by simp [hid]⟩
    obtain ⟨t, ht⟩ := Option.isSome_iff_exists.mp hfind
    obtain ⟨rest, hrest⟩ := ih (fun j hj => h j (by simp [hj]))
    exact ⟨t :: rest, by unfold lookupLive; rw [ht, hrest]⟩

lemma add_ok_spec {s : BuilderState} {bloq : BloqSpec} {kwargs : List (String × Nat)}
    {outs : List Soquet} {s' : BuilderState}
    (h : s.add bloq kwargs = .ok (outs, s')) :
    ∃ ins soqs,
      (kwargs.map Prod.fst).Nodup
      ∧ (kwargs.map Prod.fst).Perm ((leftRegs bloq.sig).map Register.name)
      ∧ lookupKwargs kwargs (leftRegs bloq.sig) = some ins
      ∧ (ins.map Prod.snd).Nodup
      ∧ lookupLive s.live (ins.map Prod.snd) = some soqs
      ∧ outs = freshOuts s.nextId s.nextNode (rightRegs bloq.sig)
      ∧ s'.nextId = s.nextId + outs.length
      ∧ s'.nextNode = s.nextNode + 1
      ∧ s'.live = s.live.filter (fun soq => ! (ins.map Prod.snd).contains soq.id) ++ outs
      ∧ s'.edges = s.edges ++ soqs.map (fun soq => (soq.producer, s.nextNode))
      ∧ s'.add_register_allowed = s.add_register_allowed := by
  unfold BuilderState.add at h
  split at h
  · exact absurd h (by simp)
  split at h
  · exact absurd h (by simp)
  split at h
  · exact absurd h (by simp)
  rename_i h1 h2 hopt ins hlk
  split at h
  · exact absurd h (by simp)
  rename_i h3
  split at h
  · exact absurd h (by simp)
  rename_i hopt2 soqs hll
  split at h
  · exact absurd h (by simp)
  rename_i h4
  have hp := (Prod.mk.injEq _ _ _ _).mp (Except.ok.inj h)
  have houts := hp.1.symm
  have hs' := hp.2.symm
  refine ⟨ins, soqs, not_not.mp h1, not_not.mp h2, hlk, not_not.mp h3, hll, houts,
    ?_, ?_, ?_, ?_, ?_⟩ <;> simp [hs', houts]

lemma split_ok_spec {s : BuilderState} {x : Nat} {outs : List Soquet} {s' : BuilderState}
    (h : s.split x = .ok (outs, s')) :
    ∃ soq, s.live.find? (fun t => t.id == x) = some soq
      ∧ outs = bitRun s.nextId s.nextNode soq.bitsize
      ∧ s'.nextId = s.nextId + soq.bitsize
      ∧ s'.nextNode = s.nextNode + 1
      ∧ s'.live = s.live.filter (fun t => ! (t.id == x)) ++ outs
      ∧ s'.edges = s.edges ++ [(soq.producer, s.nextNode)]
      ∧ s'.add_register_allowed = s.add_register_allowed := by
  unfold BuilderState.split at h
  split at h
  · exact absurd h (by simp)
  rename_i hopt soq hfind
  have hp := (Prod.mk.injEq _ _ _ _).mp (Except.ok.inj h)
  have houts := hp.1.symm
  have hs' := hp.2.symm
  refine ⟨soq, hfind, houts, ?_, ?_, ?_, ?_, ?_⟩ <;> simp [hs', houts]

lemma join_ok_spec {s : BuilderState} {xs : List Nat} {out : Soquet} {s' : BuilderState}
    (h : s.join xs = .ok (out, s')) :
    ∃ soqs, xs.Nodup
      ∧ lookupLive s.live xs = some soqs
      ∧ soqs.all (fun soq => soq.bitsize == 1)
      ∧ out = { id := s.nextId, producer := s.nextNode, regName := "reg",
                bitsize := xs.length }
      ∧ s'.nextId = s.nextId + 1
      ∧ s'.nextNode = s.nextNode + 1
      ∧ s'.live = s.live.filter (fun t => ! xs.contains t.id) ++ [out]
      ∧ s'.edges = s.edges ++ soqs.map (fun soq => (soq.producer, s.nextNode))
      ∧ s'.add_register_allowed = s.add_register_allowed := by
  unfold BuilderState.join at h
  split at h
  · exact absurd h (by simp)
  rename_i h1
  split at h
  · exact absurd h (by simp)
  rename_i hopt soqs hll
  split at h
  · exact absurd h (by simp)
  rename_i h2
  have hp := (Prod.mk.injEq _ _ _ _).mp (Except.ok.inj h)
  have hout := hp.1.symm
  have hs' := hp.2.symm
  refine ⟨soqs, not_not.mp h1, hll, not_not.mp h2, hout, ?_, ?_, ?_, ?_, ?_⟩
    <;> simp [hs', hout]

lemma addRegister_ok_spec {s : BuilderState} {name : String} {bitsize : Nat} :
    (s.addRegister name bitsize).1
        = { id := s.nextId, producer := 0, regName := name, bitsize := bitsize }
      ∧ (s.addRegister name bitsize).2.nextId = s.nextId + 1
      ∧ (s.addRegister name bitsize).2.nextNode = s.nextNode
      ∧ (s.addRegister name bitsize).2.live
          = s.live ++ [{ id := s.nextId, producer := 0, regName := name, bitsize := bitsize }]
      ∧ (s.addRegister name bitsize).2.edges = s.edges
      ∧ (s.addRegister name bitsize).2.add_register_allowed = s.add_register_allowed :=
  ⟨rfl, rfl, rfl, rfl, rfl, rfl⟩

/-- The builder invariant: node indices and soquet ids in the state are
below the respective fresh supplies, every edge goes from a lower to a
higher node, and live soquet ids are distinct. -/
def BuilderInv (s : BuilderState) : Prop :=
  0 < s.nextNode
  ∧ (∀ soq ∈ s.live, soq.id < s.nextId ∧ soq.producer < s.nextNode)
  ∧ (∀ e ∈ s.edges, e.1 < e.2 ∧ e.2 < s.nextNode)
  ∧ (s.live.map Soquet.id).Nodup

lemma inv_init (allow : Bool) : BuilderInv (initBuilder allow) := by
  refine ⟨Nat.one_pos, ?_, ?_, ?_⟩ <;> simp [initBuilder]

lemma runOp_inv {s s' : BuilderState} {op : Op} (hInv : BuilderInv s)
    (h : runOp s op = .ok s') :
    BuilderInv s' ∧ s.nextId ≤ s'.nextId ∧ s.nextNode ≤ s'.nextNode := by
  obtain ⟨hn, hlive, hedge, hnd⟩ := hInv
  cases op with
  | addRegister name bitsize =>
    have hs : s' = (s.addRegister name bitsize).2 := by
      rw [runOp] at h
      exact (Except.ok.inj h).symm
    obtain ⟨_, ha, hb, hc, hd, _⟩ := @addRegister_ok_spec s name bitsize
    subst hs
    refine ⟨⟨?_, ?_, ?_, ?_⟩, ?_, ?_⟩
    · rw [hb]; exact hn
    · intro soq hsoq
      rw [hc] at hsoq
      rw [ha, hb]
      rcases List.mem_append.mp hsoq with h1 | h2
      · have := hlive soq h1
        exact ⟨by omega, this.2⟩
      · simp at h2
        rw [h2]
        exact ⟨by simp, hn⟩
    · intro e he
      rw [hd] at he
      rw [hb]
      exact hedge e he
    · rw [hc]
      simp only [List.map_append]
      rw [List.nodup_append]
      refine ⟨hnd, by simp, ?_⟩
      intro a ha2
      obtain ⟨soq, hsoq, hid⟩ := List.mem_map.mp ha2
      have := (hlive soq hsoq).1
      simp
      omega
    · rw [ha]; omega
    · rw [hb]
  | add bloq kwargs =>
    rcases hadd : s.add bloq kwargs with e | p
    · rw [runOp, hadd] at h
      exact absurd h (by simp [Except.map])
    · obtain ⟨outs, s2⟩ := p
      rw [runOp, hadd] at h
      have hs : s' = s2 := by
        simp [Except.map] at h
        exact h.symm
      subst hs
      obtain ⟨ins, soqs, _, _, _, _, hll, houts, ha, hb, hc, hd, _⟩ := add_ok_spec hadd
      refine ⟨⟨by omega, ?_, ?_, ?_⟩, by omega, by omega⟩
      · intro soq hsoq
        rw [hc] at hsoq
        rw [ha, hb]
        rcases List.mem_append.mp hsoq with h1 | h2
        · have h3 := hlive soq (List.mem_of_mem_filter h1)
          omega
        · rw [houts] at h2
          obtain ⟨h4, h5, h6⟩ := freshOuts_mem h2
          rw [houts, freshOuts_length]
          omega
      · intro e he
        rw [hd] at he
        rw [hb]
        rcases List.mem_append.mp he with h1 | h2
        · have := hedge e h1
          omega
        · obtain ⟨soq, hsoq, heq⟩ := List.mem_map.mp h2
          have := (hlive soq (lookupLive_sub hll soq hsoq)).2
          rw [← heq]
          simp only
          omega
      · rw [hc]
        simp only [List.map_append]
        rw [List.nodup_append]
        refine ⟨?_, ?_, ?_⟩
        · exact hnd.sublist ((List.filter_sublist _).map Soquet.id)
        · rw [houts]; exact freshOuts_ids_nodup _ _ _
        · intro a ha2
          obtain ⟨soq, hsoq, hid⟩ := List.mem_map.mp ha2
          have h3 := (hlive soq (List.mem_of_mem_filter hsoq)).1
          intro hmem
          obtain ⟨soq2, hsoq2, hid2⟩ := List.mem_map.mp hmem
          rw [houts] at hsoq2
          have := (freshOuts_mem hsoq2).1
          omega
  | split x =>
    rcases hsp : s.split x with e | p
    · rw [runOp, hsp] at h
      exact absurd h (by simp [Except.map])
    · obtain ⟨outs, s2⟩ := p
      rw [runOp, hsp] at h
      have hs : s' = s2 := by
        simp [Except.map] at h
        exact h.symm
      subst hs
      obtain ⟨soq, hfind, houts, ha, hb, hc, hd, _⟩ := split_ok_spec hsp
      have hsoqmem : soq ∈ s.live := List.mem_of_find?_eq_some hfind
      have hsoqlt := hlive soq hsoqmem
      refine ⟨⟨by omega, ?_, ?_, ?_⟩, by omega, by omega⟩
      · intro t ht
        rw [hc] at ht
        rw [ha, hb]
        rcases List.mem_append.mp ht with h1 | h2
        · have h3 := hlive t (List.mem_of_mem_filter h1)
          omega
        · rw [houts] at h2
          obtain ⟨h4, h5, h6, _⟩ := bitRun_mem h2
          omega
      · intro e he
        rw [hd] at he
        rw [hb]
        rcases List.mem_append.mp he with h1 | h2
        · have := hedge e h1
          omega
        · simp at h2
          rw [h2]
          simp only
          omega
      · rw [hc]
        simp only [List.map_append]
        rw [List.nodup_append]
        refine ⟨?_, ?_, ?_⟩
        · exact hnd.sublist ((List.filter_sublist _).map Soquet.id)
        · rw [houts]; exact bitRun_ids_nodup _ _ _
        · intro a ha2
          obtain ⟨t, ht, hid⟩ := List.mem_map.mp ha2
          have h3 := (hlive t (List.mem_of_mem_filter ht)).1
          intro hmem
          obtain ⟨t2, ht2, hid2⟩ := List.mem_map.mp hmem
          rw [houts] at ht2
          have := (bitRun_mem ht2).1
          omega
  | join xs =>
    rcases hj : s.join xs with e | p
    · rw [runOp, hj] at h
      exact absurd h (by simp [Except.map])
    · obtain ⟨out, s2⟩ := p
      rw [runOp, hj] at h
      have hs : s' = s2 := by
        simp [Except.map] at h
        exact h.symm
      subst hs
      obtain ⟨soqs, hxnd, hll, hbit, hout, ha, hb, hc, hd, _⟩ := join_ok_spec hj
      refine ⟨⟨by omega, ?_, ?_, ?_⟩, by omega, by omega⟩
      · intro t ht
        rw [hc] at ht
        rw [ha, hb]
        rcases List.mem_append.mp ht with h1 | h2
        · have h3 := hlive t (List.mem_of_mem_filter h1)
          omega
        · simp at h2
          rw [h2, hout]
          simp only
          omega
      · intro e he
        rw [hd] at he
        rw [hb]
        rcases List.mem_append.mp he with h1 | h2
        · have := hedge e h1
          omega
        · obtain ⟨soq, hsoq, heq⟩ := List.mem_map.mp h2
          have := (hlive soq (lookupLive_sub hll soq hsoq)).2
          rw [← heq]
          simp only
          omega
      · rw [hc]
        simp only [List.map_append]
        rw [List.nodup_append]
        refine ⟨?_, by simp, ?_⟩
        · exact hnd.sublist ((List.filter_sublist _).map Soquet.id)
        · intro a ha2
          obtain ⟨t, ht, hid⟩ := List.mem_map.mp ha2
          have h3 := (hlive t (List.mem_of_mem_filter ht)).1
          rw [hout]
          simp
          omega

lemma runOps_inv {ops : List Op} :
    ∀ {s s' : BuilderState}, BuilderInv s → runOps s ops = .ok s' →
      BuilderInv s' ∧ s.nextId ≤ s'.nextId ∧ s.nextNode ≤ s'.nextNode := by
  induction ops with
  | nil =>
    intro s s' hInv h
    have : s = s' := by simpa [runOps] using h
    subst this
    exact ⟨hInv, le_refl _, le_refl _⟩
  | cons op ops ih =>
    intro s s' hInv h
    unfold runOps at h
    rcases hop : runOp s op with e | t
    · rw [hop] at h
      exact absurd h (by simp)
    · rw [hop] at h
      obtain ⟨hInvT, ha, hb⟩ := runOp_inv hInv hop
      obtain ⟨hInv', hc, hd⟩ := ih hInvT h
      exact ⟨hInv', le_trans ha hc, le_trans hb hd⟩

/-- A non-empty directed path along the wiring edges. -/
inductive EdgePath (E : List (Nat × Nat)) : Nat → Nat → Prop
  | single {u v : Nat} : (u, v) ∈ E → EdgePath E u v
  | step {u v w : Nat} : (u, v) ∈ E → EdgePath E v w → EdgePath E u w

lemma edgePath_lt {E : List (Nat × Nat)} (hE : ∀ e ∈ E, e.1 < e.2) :
    ∀ {u v : Nat}, EdgePath E u v → u < v := by
  intro u v h
  induction h with
  | single h1 => exact hE _ h1
  | step h1 _ ih => exact lt_trans (hE _ h1) ih

/-- Translated from the notebook: the standalone building session of the
linear-logic examples (registers `x`, `y` and the CNOT operations). -/
def tutorialOps : List Op :=
  [Op.addRegister "x" 1, Op.addRegister "y" 1,
   Op.add CNOT [("control", 0), ("target", 1)],
   Op.add CNOT [("control", 2), ("target", 3)]]

/-- The state reached by `tutorialOps` with the default
`add_register_allowed = true`. -/
def tutorialState : BuilderState :=
  { nextId := 6, nextNode := 3,
    live := [{ id := 4, producer := 2, regName := "control", bitsize := 1 },
             { id := 5, producer := 2, regName := "target", bitsize := 1 }],
    edges := [(0, 1), (0, 1), (1, 2), (1, 2)],
    add_register_allowed := true }

/-- The state reached by `tutorialOps` with the additional checks on
(`add_register_allowed = false`, as set in the notebook). -/
def tutorialStateStrict : BuilderState :=
  { nextId := 6, nextNode := 3,
    live := [{ id := 4, producer := 2, regName := "control", bitsize := 1 },
             { id := 5, producer := 2, regName := "target", bitsize := 1 }],
    edges := [(0, 1), (0, 1), (1, 2), (1, 2)],
    add_register_allowed := false }

/-- C5: the wiring graph maintained by the builder is always a directed
acyclic graph: in every state reachable by a sequence of builder
operations that raises no `BloqError`, every wiring edge goes from an
earlier node to a later one, and consequently the graph has no directed
cycle. -/
theorem builder_wiring_acyclic (b : Bool) (ops : List Op) (s : BuilderState)
    (h : runOps (initBuilder b) ops = .ok s) :
    (∀ e ∈ s.edges, e.1 < e.2) ∧ ∀ v : Nat, ¬ EdgePath s.edges v v := by
  have hInv := (runOps_inv (inv_init b) h).1
  have hE : ∀ e ∈ s.edges, e.1 < e.2 := fun e he => (hInv.2.2.1 e he).1
  exact ⟨hE, fun v hp => lt_irrefl v (edgePath_lt hE hp)⟩

theorem builder_wiring_acyclic_witness : ¬ EdgePath tutorialState.edges 1 1 :=
  (builder_wiring_acyclic true tutorialOps tutorialState rfl).2 1

/-- C3 counterexample: with the default `add_register_allowed = true`
builder (exactly the notebook's session, but without setting the flag),
the live soquet `5` is not passed on to `finalize`, and yet `finalize`
succeeds (it auto-adds an output register) instead of raising
`BloqError`; so finalize does not raise for every building session. -/
theorem finalize_claim_counterexample :
    runOps (initBuilder true) tutorialOps = .ok tutorialState
    ∧ (5 : Nat) ∈ liveIds tutorialState
    ∧ (5 : Nat) ∉ ([("x", 4)] : List (String × Nat)).map Prod.snd
    ∧ isErr (tutorialState.finalize [("x", 4)]) = false :=
  ⟨rfl, by decide, by decide, rfl⟩

/-- C3 (amended): when the additional checks are on
(`add_register_allowed = false`, as the notebook sets before its
finalize example), any live quantum variable not passed on to
`finalize` makes `finalize` raise `BloqError` instead of producing a
`CompositeBloq`. -/
theorem finalize_rejects_dangling (s : BuilderState) (outs : List (String × Nat))
    (soq : Soquet) (hallow : s.add_register_allowed = false)
    (hlive : soq ∈ s.live) (hout : soq.id ∉ outs.map Prod.snd) :
    isErr (s.finalize outs) = true := by
  unfold BuilderState.finalize
  split
  · rfl
  split
  · rfl
  rename_i h1 hopt soqs hll
  have hmem : soq ∈ s.live.filter (fun t => ! (outs.map Prod.snd).contains t.id) := by
    refine List.mem_filter.mpr ⟨hlive, ?_⟩
    simpa [List.elem_iff] using hout
  rw [if_pos ⟨List.ne_nil_of_mem hmem, hallow⟩]
  rfl

theorem finalize_rejects_dangling_witness :
    tutorialStateStrict.add_register_allowed = false
    ∧ isErr (tutorialStateStrict.finalize [("x", 4)]) = true :=
  ⟨rfl, finalize_rejects_dangling tutorialStateStrict [("x", 4)]
    { id := 5, producer := 2, regName := "target", bitsize := 1 }
    rfl (by decide) (by decide)⟩

lemma runOps_cons (s : BuilderState) (op : Op) (ops : List Op) :
    runOps s (op :: ops) = match runOp s op with
      | .error e => .error e
      | .ok s' => runOps s' ops := rfl

lemma runOps_append_ok {l1 : List Op} :
    ∀ {s t : BuilderState} {l2 : List Op}, runOps s l1 = .ok t →
      runOps s (l1 ++ l2) = runOps t l2 := by
  induction l1 with
  | nil =>
    intro s t l2 h
    have : s = t := by simpa [runOps] using h
    subst this
    rfl
  | cons op ops ih =>
    intro s t l2 h
    unfold runOps at h
    rcases hop : runOp s op with e | u
    · rw [hop] at h; exact absurd h (by simp)
    · rw [hop] at h
      rw [List.cons_append, runOps_cons, hop]
      exact ih h

lemma runOp_mono {s s' : BuilderState} {op : Op} (h : runOp s op = .ok s') :
    s.nextId ≤ s'.nextId := by
  cases op with
  | addRegister name bitsize =>
    have hs : s' = (s.addRegister name bitsize).2 := by
      rw [runOp] at h
      exact (Except.ok.inj h).symm
    obtain ⟨_, ha, _⟩ := @addRegister_ok_spec s name bitsize
    subst hs
    omega
  | add bloq kwargs =>
    rcases hadd : s.add bloq kwargs with e | p
    · rw [runOp, hadd] at h; exact absurd h (by simp [Except.map])
    · obtain ⟨outs, s2⟩ := p
      rw [runOp, hadd] at h
      have hs : s' = s2 := by
        simp [Except.map] at h
        exact h.symm
      subst hs
      obtain ⟨_, _, _, _, _, _, _, _, ha, _⟩ := add_ok_spec hadd
      omega
  | split x =>
    rcases hsp : s.split x with e | p
    · rw [runOp, hsp] at h; exact absurd h (by simp [Except.map])
    · obtain ⟨outs, s2⟩ := p
      rw [runOp, hsp] at h
      have hs : s' = s2 := by
        simp [Except.map] at h
        exact h.symm
      subst hs
      obtain ⟨_, _, _, ha, _⟩ := split_ok_spec hsp
      omega
  | join xs =>
    rcases hj : s.join xs with e | p
    · rw [runOp, hj] at h; exact absurd h (by simp [Except.map])
    · obtain ⟨out, s2⟩ := p
      rw [runOp, hj] at h
      have hs : s' = s2 := by
        simp [Except.map] at h
        exact h.symm
      subst hs
      obtain ⟨_, _, _, _, _, ha, _⟩ := join_ok_spec hj
      omega

lemma runOp_dead {s s' : BuilderState} {op : Op} {id : Nat} (h : runOp s op = .ok s')
    (hlt : id < s.nextId) (hdead : id ∉ liveIds s) : id ∉ liveIds s' := by
  intro hmem
  unfold liveIds at hmem hdead
  cases op with
  | addRegister name bitsize =>
    have hs : s' = (s.addRegister name bitsize).2 := by
      rw [runOp] at h
      exact (Except.ok.inj h).symm
    obtain ⟨_, ha, _, hc, _⟩ := @addRegister_ok_spec s name bitsize
    subst hs
    rw [hc] at hmem
    obtain ⟨soq, hsoq, hid⟩ := List.mem_map.mp hmem
    rcases List.mem_append.mp hsoq with h1 | h2
    · exact hdead (List.mem_map.mpr ⟨soq, h1, hid⟩)
    · simp at h2
      rw [h2] at hid
      simp at hid
      omega
  | add bloq kwargs =>
    rcases hadd : s.add bloq kwargs with e | p
    · rw [runOp, hadd] at h; exact absurd h (by simp [Except.map])
    · obtain ⟨outs, s2⟩ := p
      rw [runOp, hadd] at h
      have hs : s' = s2 := by
        simp [Except.map] at h
        exact h.symm
      subst hs
      obtain ⟨_, _, _, _, _, _, hll, houts, _, _, hc, _⟩ := add_ok_spec hadd
      rw [hc] at hmem
      obtain ⟨soq, hsoq, hid⟩ := List.mem_map.mp hmem
      rcases List.mem_append.mp hsoq with h1 | h2
      · exact hdead (List.mem_map.mpr ⟨soq, List.mem_of_mem_filter h1, hid⟩)
      · rw [houts] at h2
        have := (freshOuts_mem h2).1
        omega
  | split x =>
    rcases hsp : s.split x with e | p
    · rw [runOp, hsp] at h; exact absurd h (by simp [Except.map])
    · obtain ⟨outs, s2⟩ := p
      rw [runOp, hsp] at h
      have hs : s' = s2 := by
        simp [Except.map] at h
        exact h.symm
      subst hs
      obtain ⟨soq0, hfind, houts, _, _, hc, _⟩ := split_ok_spec hsp
      rw [hc] at hmem
      obtain ⟨soq, hsoq, hid⟩ := List.mem_map.mp hmem
      rcases List.mem_append.mp hsoq with h1 | h2
      · exact hdead (List.mem_map.mpr ⟨soq, List.mem_of_mem_filter h1, hid⟩)
      · rw [houts] at h2
        have := (bitRun_mem h2).1
        omega
  | join xs =>
    rcases hj : s.join xs with e | p
    · rw [runOp, hj] at h; exact absurd h (by simp [Except.map])
    · obtain ⟨out, s2⟩ := p
      rw [runOp, hj] at h
      have hs : s' = s2 := by
        simp [Except.map] at h
        exact h.symm
      subst hs
      obtain ⟨_, _, _, _, hout, _, _, hc, _⟩ := join_ok_spec hj
      rw [hc] at hmem
      obtain ⟨soq, hsoq, hid⟩ := List.mem_map.mp hmem
      rcases List.mem_append.mp hsoq with h1 | h2
      · exact hdead (List.mem_map.mpr ⟨soq, List.mem_of_mem_filter h1, hid⟩)
      · simp at h2
        rw [h2, hout] at hid
        simp at hid
        omega

lemma runOps_dead {ops : List Op} :
    ∀ {s s' : BuilderState} {id : Nat}, runOps s ops = .ok s' →
      id < s.nextId → id ∉ liveIds s → id ∉ liveIds s' := by
  induction ops with
  | nil =>
    intro s s' id h hlt hdead
    have : s = s' := by simpa [runOps] using h
    subst this
    exact hdead
  | cons op ops ih =>
    intro s s' id h hlt hdead
    unfold runOps at h
    rcases hop : runOp s op with e | t
    · rw [hop] at h; exact absurd h (by simp)
    · rw [hop] at h
      exact ih h (lt_of_lt_of_le hlt (runOp_mono hop)) (runOp_dead hop hlt hdead)

/-- A quantum variable `id` was consumed at some step of the run: it was
live before that step's operation and no longer live after it. -/
def ConsumedDuring (s0 : BuilderState) (ops : List Op) (id : Nat) : Prop :=
  ∃ pre op post t t', ops = pre ++ op :: post
    ∧ runOps s0 pre = .ok t ∧ runOp t op = .ok t'
    ∧ id ∈ liveIds t ∧ id ∉ liveIds t'

lemma consumed_dead {b : Bool} {ops : List Op} {s : BuilderState} {id : Nat}
    (hrun : runOps (initBuilder b) ops = .ok s)
    (hc : ConsumedDuring (initBuilder b) ops id) : id ∉ liveIds s := by
  obtain ⟨pre, op, post, t, t', hops, hpre, hop, hlivet, hdeadt'⟩ := hc
  subst hops
  rw [runOps_append_ok hpre] at hrun
  unfold runOps at hrun
  rw [hop] at hrun
  have hInvt := (runOps_inv (inv_init b) hpre).1
  obtain ⟨soq, hsoq, hid⟩ := List.mem_map.mp hlivet
  have hlt : id < t.nextId := by
    have := (hInvt.2.1 soq hsoq).1
    omega
  have hlt' : id < t'.nextId := lt_of_lt_of_le hlt (runOp_mono hop)
  exact runOps_dead hrun hlt' hdeadt'

lemma mem_fst_unique {α β : Type} [DecidableEq α] {l : List (α × β)} {a : α} {b c : β} :
    (l.map Prod.fst).Nodup → (a, b) ∈ l → (a, c) ∈ l → b = c := by
  induction l with
  | nil => intro _ h1; simp at h1
  | cons d t ih =>
    intro hnd h1 h2
    rw [List.map_cons] at hnd
    have hnd' := List.nodup_cons.mp hnd
    rcases List.mem_cons.mp h1 with e1 | m1
    · rcases List.mem_cons.mp h2 with e2 | m2
      · rw [← e1] at e2
        exact ((Prod.mk.injEq _ _ _ _).mp e2).2.symm
      · exfalso
        apply hnd'.1
        rw [← e1]
        exact List.mem_map.mpr ⟨(a, c), m2, rfl⟩
    · rcases List.mem_cons.mp h2 with e2 | m2
      · exfalso
        apply hnd'.1
        rw [← e2]
        exact List.mem_map.mpr ⟨(a, b), m1, rfl⟩
      · exact ih hnd'.2 m1 m2

lemma lookupKwargs_covers {kwargs : List (String × Nat)} {nm : String} {id : Nat}
    (hnodup : (kwargs.map Prod.fst).Nodup) (hmem : (nm, id) ∈ kwargs) :
    ∀ {regs : List Register} {ins : List (Register × Nat)},
      nm ∈ regs.map Register.name → lookupKwargs kwargs regs = some ins →
        id ∈ ins.map Prod.snd := by
  intro regs
  induction regs with
  | nil => intro ins hreg; simp at hreg
  | cons r rs ih =>
    intro ins hreg hlk
    unfold lookupKwargs at hlk
    rcases hfind : kwargs.find? (fun p => p.1 == r.name) with _ | p
    · rw [hfind] at hlk; exact absurd hlk (by simp)
    rw [hfind] at hlk
    rcases hrest : lookupKwargs kwargs rs with _ | rest
    · rw [hrest] at hlk; exact absurd hlk (by simp)
    rw [hrest] at hlk
    have hins : (r, p.2) :: rest = ins := by simpa using hlk
    subst hins
    by_cases hcase : r.name = nm
    · have hp1 : p.1 = r.name := by simpa using List.find?_some hfind
      have hpmem : p ∈ kwargs := List.mem_of_find?_eq_some hfind
      have hpnm : (nm, p.2) ∈ kwargs := by
        have hp : p = (nm, p.2) := by
          have hx : p.1 = nm := by rw [hp1, hcase]
          calc p = (p.1, p.2) := rfl
          _ = (nm, p.2) := by rw [hx]
        rw [← hp]
        exact hpmem
      have : id = p.2 := mem_fst_unique hnodup hmem hpnm
      simp [this]
    · have hreg' : nm ∈ rs.map Register.name := by
        rw [List.map_cons] at hreg
        rcases List.mem_cons.mp hreg with h1 | h2
        · exact absurd h1.symm hcase
        · exact h2
      have := ih hreg' hrest
      simp only [List.map_cons, List.mem_cons]
      right
      exact this

lemma lookupKwargs_two {kwargs : List (String × Nat)} {nm nm' : String} {id : Nat}
    (hnodup : (kwargs.map Prod.fst).Nodup) (hne : nm' ≠ nm)
    (hm1 : (nm, id) ∈ kwargs) (hm2 : (nm', id) ∈ kwargs) :
    ∀ {regs : List Register} {ins : List (Register × Nat)},
      nm ∈ regs.map Register.name → nm' ∈ regs.map Register.name →
      lookupKwargs kwargs regs = some ins → ¬ (ins.map Prod.snd).Nodup := by
  intro regs
  induction regs with
  | nil => intro ins hr1; simp at hr1
  | cons r rs ih =>
    intro ins hr1 hr2 hlk
    unfold lookupKwargs at hlk
    rcases hfind : kwargs.find? (fun p => p.1 == r.name) with _ | p
    · rw [hfind] at hlk; exact absurd hlk (by simp)
    rw [hfind] at hlk
    rcases hrest : lookupKwargs kwargs rs with _ | rest
    · rw [hrest] at hlk; exact absurd hlk (by simp)
    rw [hrest] at hlk
    have hins : (r, p.2) :: rest = ins := by simpa using hlk
    subst hins
    have hp1 : p.1 = r.name := by simpa using List.find?_some hfind
    have hpmem : p ∈ kwargs := List.mem_of_find?_eq_some hfind
    rw [List.map_cons] at hr1 hr2
    by_cases hcase : r.name = nm
    · have hpnm : (nm, p.2) ∈ kwargs := by
        have hp : p = (nm, p.2) := by
          have hx : p.1 = nm := by rw [hp1, hcase]
          calc p = (p.1, p.2) := rfl
          _ = (nm, p.2) := by rw [hx]
        rw [← hp]
        exact hpmem
      have hid : id = p.2 := mem_fst_unique hnodup hm1 hpnm
      have hr2' : nm' ∈ rs.map Register.name := by
        rcases List.mem_cons.mp hr2 with h1 | h2
        · exact absurd (h1.trans hcase) hne
        · exact h2
      have hin : id ∈ rest.map Prod.snd := lookupKwargs_covers hnodup hm2 hr2' hrest
      intro hnd
      rw [List.map_cons] at hnd
      have := (List.nodup_cons.mp hnd).1
      rw [← hid] at this
      exact this hin
    · by_cases hcase' : r.name = nm'
      · have hpnm : (nm', p.2) ∈ kwargs := by
          have hp : p = (nm', p.2) := by
            have hx : p.1 = nm' := by rw [hp1, hcase']
            calc p = (p.1, p.2) := rfl
            _ = (nm', p.2) := by rw [hx]
          rw [← hp]
          exact hpmem
        have hid : id = p.2 := mem_fst_unique hnodup hm2 hpnm
        have hr1' : nm ∈ rs.map Register.name := by
          rcases List.mem_cons.mp hr1 with h1 | h2
          · exact absurd h1.symm hcase
          · exact h2
        have hin : id ∈ rest.map Prod.snd := lookupKwargs_covers hnodup hm1 hr1' hrest
        intro hnd
        rw [List.map_cons] at hnd
        have := (List.nodup_cons.mp hnd).1
        rw [← hid] at this
        exact this hin
      · have hr1' : nm ∈ rs.map Register.name := by
          rcases List.mem_cons.mp hr1 with h1 | h2
          · exact absurd h1.symm hcase
          · exact h2
        have hr2' : nm' ∈ rs.map Register.name := by
          rcases List.mem_cons.mp hr2 with h1 | h2
          · exact absurd h1.symm hcase'
          · exact h2
        have := ih hr1' hr2' hrest
        intro hnd
        rw [List.map_cons] at hnd
        exact this (List.nodup_cons.mp hnd).2

lemma add_err_not_live {s : BuilderState} {bloq : BloqSpec}
    {kwargs : List (String × Nat)} {nm : String} {id : Nat}
    (hmem : (nm, id) ∈ kwargs) (hdead : id ∉ liveIds s) :
    isErr (s.add bloq kwargs) = true := by
  unfold BuilderState.add
  split
  · rfl
  split
  · rfl
  split
  · rfl
  rename_i h1 h2 hopt ins hlk
  split
  · rfl
  rename_i h3
  have hnodup := not_not.mp h1
  have hperm := not_not.mp h2
  have hreg : nm ∈ (leftRegs bloq.sig).map Register.name := by
    refine hperm.mem_iff.mp ?_
    exact List.mem_map.mpr ⟨(nm, id), hmem, rfl⟩
  have hin : id ∈ ins.map Prod.snd := lookupKwargs_covers hnodup hmem hreg hlk
  rcases hll : lookupLive s.live (ins.map Prod.snd) with _ | soqs
  · rfl
  · exfalso
    apply hdead
    have hids := lookupLive_ids hll
    rw [← hids] at hin
    obtain ⟨soq, hsoq, hid⟩ := List.mem_map.mp hin
    exact List.mem_map.mpr ⟨soq, lookupLive_sub hll soq hsoq, hid⟩

/-- C2: the builder enforces single-use (linear) consumption: in any
reachable builder state, a call `bb.add(bloq, **kwargs)` whose keyword
arguments supply the same quantum variable to two different registers,
or supply a variable that was consumed by an earlier call of the run,
raises `BloqError`. -/
theorem add_enforces_linearity (b : Bool) (ops : List Op) (s : BuilderState)
    (bloq : BloqSpec) (kwargs : List (String × Nat)) (nm : String) (id : Nat)
    (hrun : runOps (initBuilder b) ops = .ok s)
    (hmem : (nm, id) ∈ kwargs)
    (hbad : (∃ nm', nm' ≠ nm ∧ (nm', id) ∈ kwargs) ∨ ConsumedDuring (initBuilder b) ops id) :
    isErr (s.add bloq kwargs) = true := by
  rcases hbad with ⟨nm', hne, hmem'⟩ | hconsumed
  · unfold BuilderState.add
    split
    · rfl
    split
    · rfl
    split
    · rfl
    rename_i h1 h2 hopt ins hlk
    split
    · rfl
    rename_i h3
    exfalso
    have hnodup := not_not.mp h1
    have hperm := not_not.mp h2
    have hr1 : nm ∈ (leftRegs bloq.sig).map Register.name :=
      hperm.mem_iff.mp (List.mem_map.mpr ⟨(nm, id), hmem, rfl⟩)
    have hr2 : nm' ∈ (leftRegs bloq.sig).map Register.name :=
      hperm.mem_iff.mp (List.mem_map.mpr ⟨(nm', id), hmem', rfl⟩)
    exact lookupKwargs_two hnodup hne hmem hmem' hr1 hr2 hlk (not_not.mp h3)
  · exact add_err_not_live hmem (consumed_dead hrun hconsumed)

theorem add_enforces_linearity_witness :
    isErr (tutorialState.add CNOT [("control", 0), ("target", 1)]) = true :=
  add_enforces_linearity true tutorialOps tutorialState CNOT
    [("control", 0), ("target", 1)] "control" 0 rfl (by decide)
    (Or.inr ⟨[Op.addRegister "x" 1, Op.addRegister "y" 1],
      Op.add CNOT [("control", 0), ("target", 1)],
      [Op.add CNOT [("control", 2), ("target", 3)]],
      { nextId := 2, nextNode := 1,
        live := [{ id := 0, producer := 0, regName := "x", bitsize := 1 },
                 { id := 1, producer := 0, regName := "y", bitsize := 1 }],
        edges := [], add_register_allowed := true },
      { nextId := 4, nextNode := 2,
        live := [{ id := 2, producer := 1, regName := "control", bitsize := 1 },
                 { id := 3, producer := 1, regName := "target", bitsize := 1 }],
        edges := [(0, 1), (0, 1)], add_register_allowed := true },
      rfl, rfl, rfl, by decide, by decide⟩)

/-- Modelled from the spec: when decomposing, the infrastructure creates
one initial soquet per input register of the signature and passes them
to `build_composite_bloq` as keyword arguments named after the
registers. -/
def addInputRegisters (s : BuilderState) :
    List Register → List (String × Soquet) × BuilderState
  | [] => ([], s)
  | r :: rs =>
    ((r.name, (s.addRegister r.name r.bitsize).1)
        :: (addInputRegisters (s.addRegister r.name r.bitsize).2 rs).1,
     (addInputRegisters (s.addRegister r.name r.bitsize).2 rs).2)

/-- Modelled from the spec: the keyword arguments handed to
`build_composite_bloq` for a bloq with the given signature. -/
def initialSoquets (sig : List Register) : List (String × Soquet) × BuilderState :=
  addInputRegisters (initBuilder false) (leftRegs sig)

lemma addInputRegisters_names (regs : List Register) :
    ∀ (s : BuilderState), (addInputRegisters s regs).1.map Prod.fst
      = regs.map Register.name := by
  induction regs with
  | nil => intro s; rfl
  | cons r rs ih =>
    intro s
    simp [addInputRegisters, ih]

/-- C9: a successful `bb.add(bloq, **kwargs)` returns its fresh output
variables ordered according to the output registers of
`bloq.signature` (matching names and bitsizes register by register; for
`CNOT` this is `(control, target)`), and `build_composite_bloq`
receives exactly one keyword argument per input register, named after
that register. -/
theorem add_returns_signature_order (s s' : BuilderState) (bloq : BloqSpec)
    (kwargs : List (String × Nat)) (outs : List Soquet)
    (h : s.add bloq kwargs = .ok (outs, s')) :
    outs.map Soquet.regName = (rightRegs bloq.sig).map Register.name
    ∧ outs.map Soquet.bitsize = (rightRegs bloq.sig).map Register.bitsize
    ∧ ∀ sig : List Register,
        (initialSoquets sig).1.map Prod.fst = (leftRegs sig).map Register.name := by
  obtain ⟨ins, soqs, _, _, _, _, _, houts, _⟩ := add_ok_spec h
  refine ⟨?_, ?_, ?_⟩
  · rw [houts, freshOuts_names]
  · rw [houts, freshOuts_bitsizes]
  · intro sig
    exact addInputRegisters_names (leftRegs sig) (initBuilder false)

theorem add_returns_signature_order_witness :
    ([{ id := 2, producer := 1, regName := "control", bitsize := 1 },
      { id := 3, producer := 1, regName := "target", bitsize := 1 }] : List Soquet).map
        Soquet.regName
      = (rightRegs CNOT.sig).map Register.name :=
  (add_returns_signature_order
    { nextId := 2, nextNode := 1,
      live := [{ id := 0, producer := 0, regName := "x", bitsize := 1 },
               { id := 1, producer := 0, regName := "y", bitsize := 1 }],
      edges := [], add_register_allowed := true }
    { nextId := 4, nextNode := 2,
      live := [{ id := 2, producer := 1, regName := "control", bitsize := 1 },
               { id := 3, producer := 1, regName := "target", bitsize := 1 }],
      edges := [(0, 1), (0, 1)], add_register_allowed := true }
    CNOT [("control", 0), ("target", 1)]
    [{ id := 2, producer := 1, regName := "control", bitsize := 1 },
     { id := 3, producer := 1, regName := "target", bitsize := 1 }] rfl).1

/-- The classical action of `CNOT` on (control, target) basis bits: the
control passes through and the target is flipped when the control is
set. -/
def cnotBits (c t : Bool) : Bool × Bool := (c, xor t c)

/-- Translated from the notebook: the dataflow of
`SwapTwoBits.build_composite_bloq` (three CNOTs with alternating
control/target roles) as a function on basis bits. -/
def swapTwoBitsRun (x y : Bool) : Bool × Bool :=
  ((cnotBits (cnotBits (cnotBits x y).2 (cnotBits x y).1).2
      (cnotBits (cnotBits x y).2 (cnotBits x y).1).1).1,
   (cnotBits (cnotBits (cnotBits x y).2 (cnotBits x y).1).2
      (cnotBits (cnotBits x y).2 (cnotBits x y).1).1).2)

lemma swapTwoBitsRun_eq : ∀ x y : Bool, swapTwoBitsRun x y = (y, x) := by decide

/-- The little-endian bit-level view of an n-bit register value. -/
def toBits : Nat → Nat → List Bool
  | 0, _ => []
  | n + 1, x => (x % 2 == 1) :: toBits n (x / 2)

/-- Reassemble a register value from its little-endian bits. -/
def ofBits : List Bool → Nat
  | [] => 0
  | b :: bs => (if b then 1 else 0) + 2 * ofBits bs

lemma toBits_length : ∀ (n x : Nat), (toBits n x).length = n := by
  intro n
  induction n with
  | zero => intro x; rfl
  | succ n ih => intro x; simp [toBits, ih]

lemma ofBits_toBits : ∀ {n x : Nat}, x < 2 ^ n → ofBits (toBits n x) = x := by
  intro n
  induction n with
  | zero =>
    intro x h
    simp [Nat.pow_zero] at h
    subst h
    rfl
  | succ n ih =>
    intro x h
    have hdiv : x / 2 < 2 ^ n := by
      rw [Nat.pow_succ] at h
      exact Nat.div_lt_iff_lt_mul Nat.two_pos |>.mpr h
    rw [toBits, ofBits, ih hdiv]
    rcases Nat.mod_two_eq_zero_or_one x with h2 | h2 <;> rw [h2] <;> simp <;> omega

/-- Translated from the notebook: the dataflow of
`Swap.build_composite_bloq` — split both registers into bits, swap each
bit pair with `SwapTwoBits`, and join the threaded bits back into two
n-bit registers. -/
def swapRun (n x y : Nat) : Nat × Nat :=
  (ofBits (List.zipWith (fun a b => (swapTwoBitsRun a b).1) (toBits n x) (toBits n y)),
   ofBits (List.zipWith (fun a b => (swapTwoBitsRun a b).2) (toBits n x) (toBits n y)))

lemma zipWith_swapFst : ∀ (l1 l2 : List Bool), l1.length = l2.length →
    List.zipWith (fun a b => (swapTwoBitsRun a b).1) l1 l2 = l2 := by
  intro l1
  induction l1 with
  | nil =>
    intro l2 h
    cases l2 with
    | nil => rfl
    | cons b bs => simp at h
  | cons a as ih =>
    intro l2 h
    cases l2 with
    | nil => simp at h
    | cons b bs =>
      rw [List.zipWith_cons_cons, swapTwoBitsRun_eq a b, ih bs (by simpa using h)]

lemma zipWith_swapSnd : ∀ (l1 l2 : List Bool), l1.length = l2.length →
    List.zipWith (fun a b => (swapTwoBitsRun a b).2) l1 l2 = l1 := by
  intro l1
  induction l1 with
  | nil =>
    intro l2 h
    cases l2 with
    | nil => rfl
    | cons b bs => simp at h
  | cons a as ih =>
    intro l2 h
    cases l2 with
    | nil => simp at h
    | cons b bs =>
      rw [List.zipWith_cons_cons, swapTwoBitsRun_eq a b, ih bs (by simpa using h)]

lemma swapRun_eq {n x y : Nat} (hx : x < 2 ^ n) (hy : y < 2 ^ n) :
    swapRun n x y = (y, x) := by
  unfold swapRun
  rw [zipWith_swapFst _ _ (by rw [toBits_length, toBits_length]),
    zipWith_swapSnd _ _ (by rw [toBits_length, toBits_length]),
    ofBits_toBits hx, ofBits_toBits hy]

lemma bitRun_id_mem {node : Nat} :
    ∀ {c startId i : Nat},
      i ∈ (bitRun startId node c).map Soquet.id ↔ startId ≤ i ∧ i < startId + c := by
  intro c
  induction c with
  | zero =>
    intro startId i
    simp [bitRun]
  | succ c ih =>
    intro startId i
    simp only [bitRun, List.map_cons, List.mem_cons]
    rw [ih]
    constructor
    · rintro (h | h) <;> omega
    · intro h
      by_cases hi : i = startId
      · exact Or.inl hi
      · exact Or.inr ⟨by omega, by omega⟩

lemma add_eval {s : BuilderState} {bloq : BloqSpec} {kwargs : List (String × Nat)}
    {ins : List (Register × Nat)} {soqs : List Soquet}
    (h1 : (kwargs.map Prod.fst).Nodup)
    (h2 : (kwargs.map Prod.fst).Perm ((leftRegs bloq.sig).map Register.name))
    (hlk : lookupKwargs kwargs (leftRegs bloq.sig) = some ins)
    (h3 : (ins.map Prod.snd).Nodup)
    (hll : lookupLive s.live (ins.map Prod.snd) = some soqs)
    (h4 : (List.zip ins soqs).all (fun p => p.1.1.bitsize == p.2.bitsize) = true) :
    s.add bloq kwargs
      = .ok (freshOuts s.nextId s.nextNode (rightRegs bloq.sig),
          { nextId := s.nextId + (freshOuts s.nextId s.nextNode (rightRegs bloq.sig)).length,
            nextNode := s.nextNode + 1,
            live := s.live.filter (fun soq => ! (ins.map Prod.snd).contains soq.id)
              ++ freshOuts s.nextId s.nextNode (rightRegs bloq.sig),
            edges := s.edges ++ soqs.map (fun soq => (soq.producer, s.nextNode)),
            add_register_allowed := s.add_register_allowed }) := by
  unfold BuilderState.add
  rw [if_neg (not_not_intro h1), if_neg (not_not_intro h2)]
  simp only [hlk]
  rw [if_neg (not_not_intro h3)]
  simp only [hll]
  rw [if_neg (not_not_intro h4)]

lemma join_eval {s : BuilderState} {xs : List Nat} {soqs : List Soquet}
    (h1 : xs.Nodup) (hll : lookupLive s.live xs = some soqs)
    (h2 : soqs.all (fun soq => soq.bitsize == 1) = true) :
    s.join xs
      = .ok ({ id := s.nextId, producer := s.nextNode, regName := "reg",
               bitsize := xs.length },
          { s with nextId := s.nextId + 1, nextNode := s.nextNode + 1,
                   live := s.live.filter (fun t => ! xs.contains t.id)
                     ++ [{ id := s.nextId, producer := s.nextNode, regName := "reg",
                           bitsize := xs.length }],
                   edges := s.edges ++ soqs.map (fun soq => (soq.producer, s.nextNode)) }) := by
  unfold BuilderState.join
  rw [if_neg (not_not_intro h1)]
  simp only [hll]
  rw [if_neg (not_not_intro h2)]

lemma finalize_eval {s : BuilderState} {outs : List (String × Nat)} {soqs : List Soquet}
    (h1 : (outs.map Prod.snd).Nodup)
    (hll : lookupLive s.live (outs.map Prod.snd) = some soqs)
    (hempty : s.live.filter (fun t => ! (outs.map Prod.snd).contains t.id) = []) :
    s.finalize outs
      = .ok { numNodes := s.nextNode + 1,
              edges := s.edges
                ++ (soqs ++ s.live.filter
                      (fun t => ! (outs.map Prod.snd).contains t.id)).map
                  (fun soq => (soq.producer, s.nextNode)) } := by
  unfold BuilderState.finalize
  rw [if_neg (not_not_intro h1)]
  simp only [hll]
  rw [if_neg (show ¬ (s.live.filter (fun t => ! (outs.map Prod.snd).contains t.id) ≠ []
    ∧ s.add_register_allowed = false) from fun hc => hc.1 hempty)]

/-- Translated from the notebook: the builder trace of
`Swap.build_composite_bloq` for loop indices `k, k+1, ..., k+m-1`: each
iteration adds `SwapTwoBits` on the i-th bit of `x` (soquet id `2 + i`)
and the i-th bit of `y` (soquet id `n + 2 + i`). -/
def swapLoopFrom (n k : Nat) : Nat → List Op
  | 0 => []
  | m + 1 =>
    Op.add SwapTwoBits [("x", 2 + k), ("y", n + 2 + k)] :: swapLoopFrom n (k + 1) m

/-- Translated from the notebook: the full builder trace of
`Swap.build_composite_bloq` on an n-bit swap: register `x` and `y`,
split both, swap all bit pairs, join both bit arrays. -/
def swapOps (n : Nat) : List Op :=
  [Op.addRegister "x" n, Op.addRegister "y" n, Op.split 0, Op.split 1]
    ++ swapLoopFrom n 0 n
    ++ [Op.join ((List.range n).map (fun i => 2 * n + 2 + 2 * i)),
        Op.join ((List.range n).map (fun i => 2 * n + 3 + 2 * i))]

/-- Running the `Swap` decomposition trace and finalizing on the two
joined registers. -/
def swapBuild (n : Nat) : Except BloqError CompositeBloq :=
  match runOps (initBuilder false) (swapOps n) with
  | .error e => .error e
  | .ok s => s.finalize [("x", 4 * n + 2), ("y", 4 * n + 3)]

/-- The loop invariant of the `Swap` decomposition trace after `k`
iterations: the live soquets are the unswapped bits of `x` (ids
`2+k ... n+1`), the unswapped bits of `y` (ids `n+2+k ... 2n+1`) and
the `2k` outputs of the swaps done so far (ids `2n+2 ... 2n+1+2k`),
all single-bit. -/
def SwapLoopInv (n k : Nat) (s : BuilderState) : Prop :=
  s.nextId = 2 * n + 2 + 2 * k
  ∧ s.nextNode = 3 + k
  ∧ (s.live.map Soquet.id).Nodup
  ∧ (∀ soq ∈ s.live, soq.bitsize = 1)
  ∧ (∀ i : Nat, i ∈ liveIds s ↔
      ((∃ j, j < n - k ∧ (i = 2 + k + j ∨ i = n + 2 + k + j))
        ∨ (∃ j, j < 2 * k ∧ i = 2 * n + 2 + j)))

lemma filter_bitRun_all {startId node c : Nat} {p : Soquet → Bool}
    (h : ∀ soq ∈ bitRun startId node c, p soq = true) :
    (bitRun startId node c).filter p = bitRun startId node c :=
  List.filter_eq_self.mpr h

lemma runOps_nil (s : BuilderState) : runOps s [] = .ok s := rfl

lemma runOp_split (s : BuilderState) (x : Nat) :
    runOp s (Op.split x) = (s.split x).map Prod.snd := rfl

lemma runOp_add (s : BuilderState) (bloq : BloqSpec) (kwargs : List (String × Nat)) :
    runOp s (Op.add bloq kwargs) = (s.add bloq kwargs).map Prod.snd := rfl

lemma runOp_join (s : BuilderState) (xs : List Nat) :
    runOp s (Op.join xs) = (s.join xs).map Prod.snd := rfl

lemma split_eval {s : BuilderState} {x : Nat} {soq : Soquet}
    (hfind : s.live.find? (fun t => t.id == x) = some soq) :
    s.split x = .ok (bitRun s.nextId s.nextNode soq.bitsize,
      { s with
        nextId := s.nextId + soq.bitsize,
        nextNode := s.nextNode + 1,
        live := s.live.filter (fun t => ! (t.id == x))
          ++ bitRun s.nextId s.nextNode soq.bitsize,
        edges := s.edges ++ [(soq.producer, s.nextNode)] }) := by
  unfold BuilderState.split
  simp only [hfind]

lemma swap_start (n : Nat) :
    runOps (initBuilder false)
        [Op.addRegister "x" n, Op.addRegister "y" n, Op.split 0, Op.split 1]
      = .ok { nextId := 2 + n + n, nextNode := 3,
              live := bitRun 2 1 n ++ bitRun (2 + n) 2 n,
              edges := [(0, 1), (0, 2)], add_register_allowed := false } := by
  have h3 : runOp
      { nextId := 2, nextNode := 1,
        live := [{ id := 0, producer := 0, regName := "x", bitsize := n },
                 { id := 1, producer := 0, regName := "y", bitsize := n }],
        edges := [], add_register_allowed := false } (Op.split 0)
      = .ok { nextId := 2 + n, nextNode := 2,
              live := [{ id := 1, producer := 0, regName := "y", bitsize := n }]
                ++ bitRun 2 1 n,
              edges := [(0, 1)], add_register_allowed := false } := rfl
  have hfilter : (([{ id := 1, producer := 0, regName := "y", bitsize := n }] : List Soquet)
        ++ bitRun 2 1 n).filter (fun t => ! (t.id == 1))
      = bitRun 2 1 n := by
    rw [List.filter_append]
    rw [filter_bitRun_all (fun soq hsoq => by
      have := (bitRun_mem hsoq).1
      simp
      omega)]
    rfl
  have h4 : runOp
      { nextId := 2 + n, nextNode := 2,
        live := [{ id := 1, producer := 0, regName := "y", bitsize := n }]
          ++ bitRun 2 1 n,
        edges := [(0, 1)], add_register_allowed := false } (Op.split 1)
      = .ok { nextId := 2 + n + n, nextNode := 3,
              live := bitRun 2 1 n ++ bitRun (2 + n) 2 n,
              edges := [(0, 1), (0, 2)], add_register_allowed := false } := by
    have hfind : (([{ id := 1, producer := 0, regName := "y", bitsize := n }]
          ++ bitRun 2 1 n) : List Soquet).find? (fun t => t.id == 1)
        = some { id := 1, producer := 0, regName := "y", bitsize := n } := rfl
    rw [runOp_split, split_eval hfind]
    simp only [Except.map]
    rw [hfilter]
    rfl
  rw [show ([Op.addRegister "x" n, Op.addRegister "y" n, Op.split 0, Op.split 1] : List Op)
    = [Op.addRegister "x" n, Op.addRegister "y" n] ++ [Op.split 0, Op.split 1] from rfl]
  rw [runOps_append_ok (show runOps (initBuilder false)
      [Op.addRegister "x" n, Op.addRegister "y" n]
    = .ok { nextId := 2, nextNode := 1,
            live := [{ id := 0, producer := 0, regName := "x", bitsize := n },
                     { id := 1, producer := 0, regName := "y", bitsize := n }],
            edges := [], add_register_allowed := false } from rfl)]
  simp only [runOps_cons, h3, h4, runOps_nil]

lemma swap_start_inv (n : Nat) :
    SwapLoopInv n 0
      { nextId := 2 + n + n, nextNode := 3,
        live := bitRun 2 1 n ++ bitRun (2 + n) 2 n,
        edges := [(0, 1), (0, 2)], add_register_allowed := false } := by
  refine ⟨?_, ?_, ?_, ?_, ?_⟩
  · show 2 + n + n = 2 * n + 2 + 2 * 0
    omega
  · show 3 = 3 + 0
    omega
  · simp only [List.map_append]
    rw [List.nodup_append]
    refine ⟨bitRun_ids_nodup _ _ _, bitRun_ids_nodup _ _ _, ?_⟩
    intro a ha hb
    rw [bitRun_id_mem] at ha hb
    omega
  · intro soq hsoq
    rcases List.mem_append.mp hsoq with h1 | h1 <;> exact (bitRun_mem h1).2.2.2
  · intro i
    unfold liveIds
    simp only [List.map_append, List.mem_append, bitRun_id_mem]
    constructor
    · rintro (h | h)
      · exact Or.inl ⟨i - 2, by omega⟩
      · exact Or.inl ⟨i - (n + 2), by omega⟩
    · rintro (⟨j, hj, hij | hij⟩ | ⟨j, hj, hij⟩)
      · exact Or.inl (by omega)
      · exact Or.inr (by omega)
      · omega

lemma swapLoop_step {n k : Nat} {s : BuilderState} (hk : k < n)
    (hInv : SwapLoopInv n k s) :
    ∃ s', runOp s (Op.add SwapTwoBits [("x", 2 + k), ("y", n + 2 + k)]) = .ok s'
      ∧ SwapLoopInv n (k + 1) s' := by
  obtain ⟨hid, hnode, hnd, hbit, hiff⟩ := hInv
  have hlk : lookupKwargs [("x", 2 + k), ("y", n + 2 + k)] (leftRegs SwapTwoBits.sig)
      = some [({ name := "x", bitsize := 1, side := Side.THRU }, 2 + k),
              ({ name := "y", bitsize := 1, side := Side.THRU }, n + 2 + k)] := rfl
  have hmem1 : (2 + k) ∈ liveIds s :=
    (hiff (2 + k)).mpr (Or.inl ⟨0, by omega, Or.inl (by omega)⟩)
  have hmem2 : (n + 2 + k) ∈ liveIds s :=
    (hiff (n + 2 + k)).mpr (Or.inl ⟨0, by omega, Or.inr (by omega)⟩)
  obtain ⟨soqs, hll⟩ := lookupLive_isSome s.live [2 + k, n + 2 + k]
    (fun i hi => by
      rcases List.mem_cons.mp hi with h1 | h2
      · subst h1; exact hmem1
      · have h3 : i = n + 2 + k := by simpa using h2
        subst h3; exact hmem2)
  have hsub := lookupLive_sub hll
  have h4 : (List.zip
        ([({ name := "x", bitsize := 1, side := Side.THRU }, 2 + k),
          ({ name := "y", bitsize := 1, side := Side.THRU }, n + 2 + k)] :
            List (Register × Nat)) soqs).all
      (fun p => p.1.1.bitsize == p.2.bitsize) = true := by
    rw [List.all_eq_true]
    intro p hp
    have hp2 : p.2 ∈ soqs := (List.of_mem_zip hp).2
    have hb := hbit p.2 (hsub p.2 hp2)
    have hp1 := (List.of_mem_zip hp).1
    have h1size : p.1.1.bitsize = 1 := by
      rcases List.mem_cons.mp hp1 with h1 | h1
      · rw [h1]
      · have h2 : p.1 = ({ name := "y", bitsize := 1, side := Side.THRU }, n + 2 + k) := by
          simpa using h1
        rw [h2]
    simp [h1size, hb]
  have h3nd : (([({ name := "x", bitsize := 1, side := Side.THRU }, 2 + k),
      ({ name := "y", bitsize := 1, side := Side.THRU }, n + 2 + k)] :
        List (Register × Nat)).map Prod.snd).Nodup := by
    simp
    omega
  have hmapfst : (([("x", 2 + k), ("y", n + 2 + k)] : List (String × Nat)).map Prod.fst)
      = ["x", "y"] := rfl
  have hnd2 : (([("x", 2 + k), ("y", n + 2 + k)] : List (String × Nat)).map Prod.fst).Nodup := by
    rw [hmapfst]
    decide
  have hperm2 : (([("x", 2 + k), ("y", n + 2 + k)] : List (String × Nat)).map Prod.fst).Perm
      ((leftRegs SwapTwoBits.sig).map Register.name) := by
    rw [hmapfst, show (leftRegs SwapTwoBits.sig).map Register.name = ["x", "y"] from rfl]
  have hadd := add_eval hnd2 hperm2 hlk h3nd hll h4
  have houts : freshOuts s.nextId s.nextNode (rightRegs SwapTwoBits.sig)
      = [{ id := s.nextId, producer := s.nextNode, regName := "x", bitsize := 1 },
         { id := s.nextId + 1, producer := s.nextNode, regName := "y", bitsize := 1 }] := rfl
  refine ⟨_, by rw [runOp_add, hadd]; rfl, ?_⟩
  rw [houts] at hadd ⊢
  have hfiltermem : ∀ i : Nat,
      i ∈ (s.live.filter (fun soq =>
          ! (([({ name := "x", bitsize := 1, side := Side.THRU }, 2 + k),
              ({ name := "y", bitsize := 1, side := Side.THRU }, n + 2 + k)] :
                List (Register × Nat)).map Prod.snd).contains soq.id)).map Soquet.id
        ↔ i ∈ liveIds s ∧ i ≠ 2 + k ∧ i ≠ n + 2 + k := by
    intro i
    constructor
    · intro h
      obtain ⟨soq, hsoq, hid2⟩ := List.mem_map.mp h
      have hm := List.mem_filter.mp hsoq
      have hpred := hm.2
      simp at hpred
      refine ⟨List.mem_map.mpr ⟨soq, hm.1, hid2⟩, ?_, ?_⟩ <;> omega
    · rintro ⟨h1, h2, h3⟩
      obtain ⟨soq, hsoq, hid2⟩ := List.mem_map.mp h1
      refine List.mem_map.mpr ⟨soq, List.mem_filter.mpr ⟨hsoq, ?_⟩, hid2⟩
      simp
      omega
  refine ⟨?_, ?_, ?_, ?_, ?_⟩
  · show s.nextId + 2 = 2 * n + 2 + 2 * (k + 1)
    omega
  · show s.nextNode + 1 = 3 + (k + 1)
    omega
  · show ((s.live.filter _ ++ _).map Soquet.id).Nodup
    simp only [List.map_append]
    rw [List.nodup_append]
    refine ⟨hnd.sublist ((List.filter_sublist _).map Soquet.id), ?_, ?_⟩
    · simp
    · intro a ha
      rw [hfiltermem a] at ha
      have : a < 2 * n + 2 + 2 * k := by
        rcases (hiff a).mp ha.1 with ⟨j, hj, hij | hij⟩ | ⟨j, hj, hij⟩ <;> omega
      simp
      omega
  · intro soq hsoq
    rcases List.mem_append.mp hsoq with h1 | h2
    · exact hbit soq (List.mem_of_mem_filter h1)
    · rcases List.mem_cons.mp h2 with h3 | h3
      · rw [h3]
      · have h5 : soq = { id := s.nextId + 1, producer := s.nextNode, regName := "y", bitsize := 1 } := by
          simpa using h3
        rw [h5]
  · intro i
    unfold liveIds
    simp only [List.map_append, List.mem_append]
    rw [hfiltermem i]
    have hnewids : i ∈
        ([{ id := s.nextId, producer := s.nextNode, regName := "x", bitsize := 1 },
          { id := s.nextId + 1, producer := s.nextNode, regName := "y", bitsize := 1 }] :
            List Soquet).map Soquet.id
        ↔ i = s.nextId ∨ i = s.nextId + 1 := by
      simp
    rw [hnewids]
    constructor
    · rintro (⟨h1, h2, h3⟩ | h1 | h1)
      · rcases (hiff i).mp h1 with ⟨j, hj, hij | hij⟩ | ⟨j, hj, hij⟩
        · exact Or.inl ⟨j - 1, by omega, Or.inl (by omega)⟩
        · exact Or.inl ⟨j - 1, by omega, Or.inr (by omega)⟩
        · exact Or.inr ⟨j, by omega, by omega⟩
      · exact Or.inr ⟨2 * k, by omega, by omega⟩
      · exact Or.inr ⟨2 * k + 1, by omega, by omega⟩
    · rintro (⟨j, hj, hij | hij⟩ | ⟨j, hj, hij⟩)
      · refine Or.inl ⟨(hiff i).mpr (Or.inl ⟨j + 1, by omega, Or.inl (by omega)⟩), by omega, by omega⟩
      · refine Or.inl ⟨(hiff i).mpr (Or.inl ⟨j + 1, by omega, Or.inr (by omega)⟩), by omega, by omega⟩
      · by_cases hcase : j < 2 * k
        · refine Or.inl ⟨(hiff i).mpr (Or.inr ⟨j, hcase, by omega⟩), by omega, by omega⟩
        · by_cases hcase2 : j = 2 * k
          · exact Or.inr (Or.inl (by omega))
          · exact Or.inr (Or.inr (by omega))

lemma swapLoop_run {n : Nat} :
    ∀ {m k : Nat} {s : BuilderState}, k + m = n → SwapLoopInv n k s →
      ∃ s', runOps s (swapLoopFrom n k m) = .ok s' ∧ SwapLoopInv n n s' := by
  intro m
  induction m with
  | zero =>
    intro k s hkm hInv
    have hk : k = n := by omega
    subst hk
    exact ⟨s, rfl, hInv⟩
  | succ m ih =>
    intro k s hkm hInv
    obtain ⟨s1, hok, hInv1⟩ := swapLoop_step (by omega) hInv
    obtain ⟨s', hrun, hInv'⟩ := ih (by omega) hInv1
    refine ⟨s', ?_, hInv'⟩
    rw [show swapLoopFrom n k (m + 1)
      = Op.add SwapTwoBits [("x", 2 + k), ("y", n + 2 + k)] :: swapLoopFrom n (k + 1) m
      from rfl]
    rw [runOps_cons, hok]
    exact hrun

lemma swapJoins_run {n : Nat} {s : BuilderState} (hInv : SwapLoopInv n n s) :
    ∃ cb : CompositeBloq,
      (match runOps s [Op.join ((List.range n).map (fun i => 2 * n + 2 + 2 * i)),
          Op.join ((List.range n).map (fun i => 2 * n + 3 + 2 * i))] with
        | .error e => (.error e : Except BloqError CompositeBloq)
        | .ok t => t.finalize [("x", 4 * n + 2), ("y", 4 * n + 3)]) = .ok cb := by
  obtain ⟨hid, hnode, hnd, hbit, hiff⟩ := hInv
  have hxs1 : ∀ i : Nat, i ∈ (List.range n).map (fun t => 2 * n + 2 + 2 * t)
      ↔ ∃ t, t < n ∧ 2 * n + 2 + 2 * t = i := by
    intro i
    simp [List.mem_map, List.mem_range]
  have hxs2 : ∀ i : Nat, i ∈ (List.range n).map (fun t => 2 * n + 3 + 2 * t)
      ↔ ∃ t, t < n ∧ 2 * n + 3 + 2 * t = i := by
    intro i
    simp [List.mem_map, List.mem_range]
  have hnd1 : ((List.range n).map (fun t => 2 * n + 2 + 2 * t)).Nodup :=
    (List.nodup_range n).map (fun a b h => by simp at h; omega)
  have hnd2 : ((List.range n).map (fun t => 2 * n + 3 + 2 * t)).Nodup :=
    (List.nodup_range n).map (fun a b h => by simp at h; omega)
  have hlen1 : ((List.range n).map (fun t => 2 * n + 2 + 2 * t)).length = n := by
    simp
  have hlen2 : ((List.range n).map (fun t => 2 * n + 3 + 2 * t)).length = n := by
    simp
  -- first join
  obtain ⟨soqs1, hll1⟩ := lookupLive_isSome s.live
    ((List.range n).map (fun t => 2 * n + 2 + 2 * t))
    (fun i hi => by
      obtain ⟨t, ht, hti⟩ := (hxs1 i).mp hi
      exact (hiff i).mpr (Or.inr ⟨2 * t, by omega, by omega⟩))
  have hbit1 : soqs1.all (fun soq => soq.bitsize == 1) = true := by
    rw [List.all_eq_true]
    intro soq hsoq
    simp [hbit soq (lookupLive_sub hll1 soq hsoq)]
  have hj1 := join_eval hnd1 hll1 hbit1
  -- the state after the first join
  set out1 : Soquet :=
    { id := s.nextId, producer := s.nextNode, regName := "reg",
      bitsize := ((List.range n).map (fun t => 2 * n + 2 + 2 * t)).length } with hout1
  set s1 : BuilderState :=
    { s with
      nextId := s.nextId + 1, nextNode := s.nextNode + 1,
      live := s.live.filter
          (fun t => ! ((List.range n).map (fun t => 2 * n + 2 + 2 * t)).contains t.id)
        ++ [out1],
      edges := s.edges ++ soqs1.map (fun soq => (soq.producer, s.nextNode)) } with hs1
  -- second join
  obtain ⟨soqs2, hll2⟩ := lookupLive_isSome s1.live
    ((List.range n).map (fun t => 2 * n + 3 + 2 * t))
    (fun i hi => by
      obtain ⟨t, ht, hti⟩ := (hxs2 i).mp hi
      have hmemold : i ∈ liveIds s := (hiff i).mpr (Or.inr ⟨2 * t + 1, by omega, by omega⟩)
      obtain ⟨soq, hsoq, hidq⟩ := List.mem_map.mp hmemold
      rw [hs1]
      simp only [List.map_append, List.mem_append]
      left
      refine List.mem_map.mpr ⟨soq, List.mem_filter.mpr ⟨hsoq, ?_⟩, hidq⟩
      have : soq.id ∉ (List.range n).map (fun t => 2 * n + 2 + 2 * t) := by
        rw [hxs1]
        rintro ⟨t2, ht2, hti2⟩
        omega
      simpa [List.elem_iff] using this)
  have hbit2 : soqs2.all (fun soq => soq.bitsize == 1) = true := by
    rw [List.all_eq_true]
    intro soq hsoq
    have hids2 := lookupLive_ids hll2
    have hidmem : soq.id ∈ (List.range n).map (fun t => 2 * n + 3 + 2 * t) := by
      rw [← hids2]
      exact List.mem_map.mpr ⟨soq, hsoq, rfl⟩
    obtain ⟨t, ht, hti⟩ := (hxs2 soq.id).mp hidmem
    have hsoqin : soq ∈ s1.live := lookupLive_sub hll2 soq hsoq
    rw [hs1] at hsoqin
    rcases List.mem_append.mp hsoqin with h1 | h2
    · simp [hbit soq (List.mem_of_mem_filter h1)]
    · exfalso
      have : soq = out1 := by simpa using h2
      rw [this, hout1] at hti
      simp [hlen1] at hti
      omega
  have hj2 := join_eval hnd2 hll2 hbit2
  set out2 : Soquet :=
    { id := s1.nextId, producer := s1.nextNode, regName := "reg",
      bitsize := ((List.range n).map (fun t => 2 * n + 3 + 2 * t)).length } with hout2
  set s2 : BuilderState :=
    { s1 with
      nextId := s1.nextId + 1, nextNode := s1.nextNode + 1,
      live := s1.live.filter
          (fun t => ! ((List.range n).map (fun t => 2 * n + 3 + 2 * t)).contains t.id)
        ++ [out2],
      edges := s1.edges ++ soqs2.map (fun soq => (soq.producer, s1.nextNode)) } with hs2
  -- finalize
  have hfinnd : (([("x", 4 * n + 2), ("y", 4 * n + 3)] :
      List (String × Nat)).map Prod.snd).Nodup := by
    simp
  have hout1id : out1.id = s.nextId := rfl
  have hout2id : out2.id = s1.nextId := rfl
  have hs1id : s1.nextId = s.nextId + 1 := rfl
  have hout1mem1 : out1 ∈ s1.live := by
    rw [hs1]
    exact List.mem_append.mpr (Or.inr (by simp))
  have hout1notxs2 : out1.id ∉ (List.range n).map (fun t => 2 * n + 3 + 2 * t) := by
    rw [hxs2]
    rintro ⟨t, ht, hti⟩
    rw [hout1id] at hti
    omega
  have hout1mem : out1 ∈ s2.live := by
    rw [hs2]
    refine List.mem_append.mpr (Or.inl (List.mem_filter.mpr ⟨hout1mem1, ?_⟩))
    simpa [List.elem_iff] using hout1notxs2
  have hout2mem : out2 ∈ s2.live := by
    rw [hs2]
    exact List.mem_append.mpr (Or.inr (by simp))
  obtain ⟨soqsF, hllF⟩ := lookupLive_isSome s2.live
    (([("x", 4 * n + 2), ("y", 4 * n + 3)] : List (String × Nat)).map Prod.snd)
    (fun i hi => by
      have hi2 : i = 4 * n + 2 ∨ i = 4 * n + 3 := by simpa using hi
      rcases hi2 with h | h
      · subst h
        exact List.mem_map.mpr ⟨out1, hout1mem, by rw [hout1id]; omega⟩
      · subst h
        exact List.mem_map.mpr ⟨out2, hout2mem, by rw [hout2id, hs1id]; omega⟩)
  have hempty : s2.live.filter
      (fun t => ! (([("x", 4 * n + 2), ("y", 4 * n + 3)] :
          List (String × Nat)).map Prod.snd).contains t.id) = [] := by
    rw [List.filter_eq_nil_iff]
    intro t ht
    rw [hs2] at ht
    have hgoal : t.id = 4 * n + 2 ∨ t.id = 4 * n + 3 →
        (! (([("x", 4 * n + 2), ("y", 4 * n + 3)] :
          List (String × Nat)).map Prod.snd).contains t.id) = false := by
      intro hcase
      simp [List.elem_iff]
      omega
    rcases List.mem_append.mp ht with h1 | h2
    · have h1a := List.mem_of_mem_filter h1
      have h1pred := (List.mem_filter.mp h1).2
      rw [hs1] at h1a
      rcases List.mem_append.mp h1a with h3 | h4
      · exfalso
        have h3a := List.mem_of_mem_filter h3
        have h3pred := (List.mem_filter.mp h3).2
        have hidin : t.id ∈ liveIds s := List.mem_map.mpr ⟨t, h3a, rfl⟩
        have h3pred2 : t.id ∉ (List.range n).map (fun t => 2 * n + 2 + 2 * t) := by
          simpa [List.elem_iff] using h3pred
        have h1pred2 : t.id ∉ (List.range n).map (fun t => 2 * n + 3 + 2 * t) := by
          simpa [List.elem_iff] using h1pred
        rcases (hiff t.id).mp hidin with ⟨j, hj, hij⟩ | ⟨j, hj, hij⟩
        · omega
        · rcases Nat.even_or_odd j with ⟨t2, ht2⟩ | ⟨t2, ht2⟩
          · exact h3pred2 ((hxs1 t.id).mpr ⟨t2, by omega, by omega⟩)
          · exact h1pred2 ((hxs2 t.id).mpr ⟨t2, by omega, by omega⟩)
      · have ht2 : t = out1 := by simpa using h4
        have h := hgoal (Or.inl (by rw [ht2, hout1id]; omega))
        rw [h]
        exact Bool.false_ne_true
    · have ht2 : t = out2 := by simpa using h2
      have h := hgoal (Or.inr (by rw [ht2, hout2id, hs1id]; omega))
      rw [h]
      exact Bool.false_ne_true
  have hfinnd2 : ((([("x", 4 * n + 2), ("y", 4 * n + 3)] :
      List (String × Nat)).map Prod.snd)).Nodup := by
    simp
  have hfin := finalize_eval hfinnd2 hllF hempty
  have hrun1 : runOps s [Op.join ((List.range n).map (fun i => 2 * n + 2 + 2 * i)),
      Op.join ((List.range n).map (fun i => 2 * n + 3 + 2 * i))] = .ok s2 := by
    rw [runOps_cons, runOp_join, hj1]
    simp only [Except.map]
    rw [runOps_cons, runOp_join, hj2]
    simp only [Except.map]
    rfl
  simp only [hrun1]
  exact ⟨_, hfin⟩

lemma swapBuild_ok (n : Nat) : ∃ cb : CompositeBloq, swapBuild n = .ok cb := by
  obtain ⟨sEnd, hloop, hInvN⟩ := swapLoop_run (n := n) (m := n) (k := 0)
    (by omega) (swap_start_inv n)
  obtain ⟨cb, hcb⟩ := swapJoins_run hInvN
  refine ⟨cb, ?_⟩
  unfold swapBuild swapOps
  rw [show ([Op.addRegister "x" n, Op.addRegister "y" n, Op.split 0, Op.split 1]
        ++ swapLoopFrom n 0 n
        ++ [Op.join ((List.range n).map (fun i => 2 * n + 2 + 2 * i)),
            Op.join ((List.range n).map (fun i => 2 * n + 3 + 2 * i))])
      = [Op.addRegister "x" n, Op.addRegister "y" n, Op.split 0, Op.split 1]
        ++ (swapLoopFrom n 0 n
          ++ [Op.join ((List.range n).map (fun i => 2 * n + 2 + 2 * i)),
              Op.join ((List.range n).map (fun i => 2 * n + 3 + 2 * i))])
      from by rw [List.append_assoc]]
  rw [runOps_append_ok (swap_start n)]
  rw [runOps_append_ok hloop]
  exact hcb

/-- C4: split/join bookkeeping is a round trip.  `bb.split` of an n-bit
quantum variable yields n single-bit variables; `bb.join` of n
single-bit variables yields one n-bit variable; the dataflow of `Swap`'s
decomposition (split both registers, swap bitwise with the three-CNOT
`SwapTwoBits`, join both) denotes the bitwise swap `(x, y) ↦ (y, x)`;
and the builder trace of that decomposition is well-formed — it builds
and finalizes without `BloqError` for every n. -/
theorem split_join_roundtrip :
    (∀ (s : BuilderState) (x : Nat) (outs : List Soquet) (s' : BuilderState),
        s.split x = .ok (outs, s') →
        ∃ soq ∈ s.live, soq.id = x ∧ outs.length = soq.bitsize
          ∧ ∀ o ∈ outs, o.bitsize = 1)
    ∧ (∀ (s : BuilderState) (xs : List Nat) (out : Soquet) (s' : BuilderState),
        s.join xs = .ok (out, s') → out.bitsize = xs.length)
    ∧ (∀ (n x y : Nat), x < 2 ^ n → y < 2 ^ n → swapRun n x y = (y, x))
    ∧ (∀ n : Nat, ∃ cb : CompositeBloq, swapBuild n = .ok cb) := by
  refine ⟨?_, ?_, ?_, swapBuild_ok⟩
  · intro s x outs s' h
    obtain ⟨soq, hfind, houts, _⟩ := split_ok_spec h
    refine ⟨soq, List.mem_of_find?_eq_some hfind, by simpa using List.find?_some hfind,
      ?_, ?_⟩
    · rw [houts, bitRun_length]
    · intro o ho
      rw [houts] at ho
      exact (bitRun_mem ho).2.2.2
  · intro s xs out s' h
    obtain ⟨soqs, _, _, _, hout, _⟩ := join_ok_spec h
    rw [hout]
  · intro n x y hx hy
    exact swapRun_eq hx hy

theorem split_join_roundtrip_witness : swapRun 2 1 2 = (2, 1) :=
  split_join_roundtrip.2.2.1 2 1 2 (by decide) (by decide)
